import Mathlib

/-!
Verification of the chapter time-code parser/normalizer of the movie-viewer
repository (src/movie_viewer/core/models.py and
src/movie_viewer/core/chapter_manager.py), as a shallow embedding in Lean 4.

Modelling conventions:
* Python `int` is `ℤ` (arbitrary precision), Python `str` is `String` /
  `List Char` (the `\d` regex class and `int()` digit parsing are modelled over
  ASCII digits; `str.strip()` whitespace is modelled by `Char.isWhitespace`,
  which covers space, tab, CR and LF).
* Python `float` values are modelled as exact rationals (`ℚ`) in the main
  model.  Where a claim's truth depends on IEEE-754 binary64 rounding, a
  separate explicit float model (`rnd53Pos` / `rnd53F`: integer mantissa and
  exponent pairs, rounded to 53 significant bits to nearest, ties to even;
  no overflow/subnormals, which do not occur in the ranges evaluated) is
  used.
* Python functions that can raise (via `int()` on non-numeric text) are
  embedded with an `Option` result; `none` models an uncaught exception.
-/

/-! ### Characters, digits and decimal rendering -/

/-- Numeric value of an ASCII digit character (`int` of a one-char digit). -/
def dval (c : Char) : ℕ := c.toNat - 48

/-- Decimal digits, fuel-based so the kernel can evaluate it: with positive
fuel, a number below 10 is one digit, otherwise recurse on `n / 10`. -/
def natDigitsAux : ℕ → ℕ → List Char
  | 0, _ => []
  | f + 1, n =>
    if n < 10 then [Nat.digitChar n]
    else natDigitsAux f (n / 10) ++ [Nat.digitChar (n % 10)]

/-- Decimal digits of a natural number, most significant first (`str(n)`). -/
def natDigits (n : ℕ) : List Char := natDigitsAux (n + 1) n

/-- `str(n)` for a Python int (`f"{n:01}"` pads to width 1, i.e. no padding). -/
def intDigits (n : ℤ) : List Char :=
  if 0 ≤ n then natDigits n.toNat else '-' :: natDigits n.natAbs

/-- Render a natural number zero-padded to (at least) two digits. -/
def twoDigits (n : ℕ) : List Char :=
  if n < 10 then ['0', Nat.digitChar n] else natDigits n

/-- `f"{n:02d}"` for a Python int: zero-pad to total width 2 (sign included). -/
def pad2 (n : ℤ) : List Char :=
  if 0 ≤ n then twoDigits n.toNat else '-' :: natDigits n.natAbs

/-- Value of a list of ASCII digit characters, with accumulator. -/
def digitsValAux (acc : ℕ) : List Char → ℕ
  | [] => acc
  | c :: r => digitsValAux (10 * acc + dval c) r

/-- Value of a list of ASCII digit characters (e.g. `"045"` ↦ `45`). -/
def digitsVal (l : List Char) : ℕ := digitsValAux 0 l

/-! ### Python string primitives -/

/-- `text.split(sep)` for a one-character separator: splits keeping empty
parts; the result is never empty. -/
def splitOnChar (sep : Char) : List Char → List (List Char)
  | [] => [[]]
  | c :: r =>
    match splitOnChar sep r with
    | [] => if c = sep then [[], []] else [[c]]
    | s :: ss => if c = sep then [] :: s :: ss else (c :: s) :: ss

/-- `text.strip()`: remove leading and trailing whitespace. -/
def pyStrip (cs : List Char) : List Char :=
  ((cs.dropWhile Char.isWhitespace).reverse.dropWhile Char.isWhitespace).reverse

/-- `re.sub(r'^[-\s]+', '', s)`: drop a leading run of dashes/whitespace. -/
def lstripDash (cs : List Char) : List Char :=
  cs.dropWhile (fun c => c = '-' || c.isWhitespace)

/-- Python slice `line[a:b]` (for `a ≤ b`; clamped at the ends like Python). -/
def seg (cs : List Char) (a b : ℕ) : List Char := (cs.drop a).take (b - a)

/-- Python `int(text)`: strip whitespace, optional sign, ASCII digits.
`none` models a `ValueError` (underscore separators are not modelled). -/
def pyIntDigits (ds : List Char) : Option ℤ :=
  if ds ≠ [] ∧ ds.all Char.isDigit then some (digitsVal ds : ℤ) else none

def pyInt (s : List Char) : Option ℤ :=
  match pyStrip s with
  | '+' :: ds => pyIntDigits ds
  | '-' :: ds => (pyIntDigits ds).map Int.neg
  | ds => pyIntDigits ds

/-- Python `int(x)` on a real value: truncation toward zero. -/
def pyTrunc (q : ℚ) : ℤ := if 0 ≤ q then ⌊q⌋ else -⌊-q⌋

/-- Round a rational to the nearest integer, ties to even (the rounding used
both by binary64 arithmetic and by `%.2f` formatting of the exact value). -/
def rndHalfEvenInt (q : ℚ) : ℤ :=
  let f := ⌊q⌋
  if q - f < 1 / 2 then f
  else if 1 / 2 < q - f then f + 1
  else if f % 2 = 0 then f else f + 1

/-- `f"{q:05.2f}"` of a (model) float value: round to centiseconds half-even,
zero-pad the integer part to two digits (total width 5; the sign of a
floating negative zero is not modelled — no constructor produces one). -/
def fmt52 (q : ℚ) : List Char :=
  let c := rndHalfEvenInt (100 * q)
  if 0 ≤ c then twoDigits (c.toNat / 100) ++ '.' :: twoDigits (c.toNat % 100)
  else '-' :: natDigits (c.natAbs / 100) ++ '.' :: twoDigits (c.natAbs % 100)

/-! ### TimePosition (src/movie_viewer/core/models.py) -/

/-- The `TimePosition` dataclass: hours, minutes (Python ints) and seconds
(Python float, modelled as an exact rational). -/
structure TimePosition where
  hours : ℤ := 0
  minutes : ℤ := 0
  seconds : ℚ := 0
deriving DecidableEq, Repr

namespace TimePosition

/-- `TimePosition.from_milliseconds`: `total_seconds = ms / 1000`, then two
`divmod`s (which floor); `int(...)` on the already integral quotients. -/
def from_milliseconds (ms : ℤ) : TimePosition :=
  let ts : ℚ := (ms : ℚ) / 1000
  let h : ℤ := ⌊ts / 3600⌋
  let remainder : ℚ := ts - 3600 * h
  let mi : ℤ := ⌊remainder / 60⌋
  let s : ℚ := remainder - 60 * mi
  ⟨h, mi, s⟩

/-- Fraction part of `re.match(r"^(\d{1,2}):(\d{2}):(\d{2})(?:\.(\d{1,3}))?$", s)`:
either nothing, or a dot followed by 1–3 digits.  Python's `$` also matches
just before one trailing newline, hence the `'\n'` cases. -/
def parseFrac (h m s : ℕ) : List Char → Option (ℕ × ℕ × ℕ × ℕ)
  | [] => some (h, m, s, 0)
  | ['\n'] => some (h, m, s, 0)
  | '.' :: ds =>
    let core := if ds.getLast? = some '\n' then ds.dropLast else ds
    if core ≠ [] ∧ core.length ≤ 3 ∧ core.all Char.isDigit then
      some (h, m, s, digitsVal core)
    else none
  | _ => none

/-- After the hour field and its colon: `(\d{2}):(\d{2})` then the fraction. -/
def parseMSF (h : ℕ) : List Char → Option (ℕ × ℕ × ℕ × ℕ)
  | a :: b :: ':' :: c :: d :: rest =>
    if a.isDigit && b.isDigit && c.isDigit && d.isDigit then
      parseFrac h (10 * dval a + dval b) (10 * dval c + dval d) rest
    else none
  | _ => none

/-- The anchored regex of `TimePosition.from_string`.  `\d{1,2}` is greedy but
deterministic here: a second digit forces the two-digit reading (backtracking
to one digit would need the second character to be `':'`, a non-digit). -/
def parseHMSF : List Char → Option (ℕ × ℕ × ℕ × ℕ)
  | c1 :: c2 :: r2 =>
    if c1.isDigit then
      if c2.isDigit then
        match r2 with
        | ':' :: r => parseMSF (10 * dval c1 + dval c2) r
        | _ => none
      else if c2 = ':' then parseMSF (dval c1) r2
      else none
    else none
  | _ => none

/-- `TimePosition.from_string`: regex match, then
`cls(int(hours), int(minutes), int(seconds) + ms / 1000)`. -/
def from_string (s : String) : Option TimePosition :=
  (parseHMSF s.toList).map fun x =>
    ⟨(x.1 : ℤ), (x.2.1 : ℤ), (x.2.2.1 : ℚ) + (x.2.2.2 : ℚ) / 1000⟩

/-- `TimePosition.to_milliseconds`:
`int(hours * 3600000 + minutes * 60000 + seconds * 1000)`. -/
def to_milliseconds (t : TimePosition) : ℤ :=
  pyTrunc (((t.hours * 3600000 + t.minutes * 60000 : ℤ) : ℚ) + t.seconds * 1000)

/-- `TimePosition.to_string`:
`f"{hours:01}:{minutes:02}:{seconds:05.2f}"` when `include_ms`, else
`f"{hours:01}:{minutes:02}:{int(seconds):02}"`. -/
def to_string (t : TimePosition) (include_ms : Bool := true) : String :=
  if include_ms then
    (intDigits t.hours ++ ':' :: pad2 t.minutes ++ ':' :: fmt52 t.seconds).asString
  else
    (intDigits t.hours ++ ':' :: pad2 t.minutes ++ ':' :: pad2 (pyTrunc t.seconds)).asString

end TimePosition

/-! ### Chapter-list parsing (src/movie_viewer/core/chapter_manager.py)

The scanning regex of `_parse_youtube_chapters` is the alternation
`\d{1,2}:\d{2}:\d{2}\.\d{3}|\d{1,2}:\d{2}\.\d{3}|\d{1,2}:\d{2}:\d{2}|\d{1,2}:\d{2}`
tried in that order at each position (leftmost-first, non-overlapping).
Within one alternative `\d{1,2}` is deterministic: when a second digit is
present the one-digit backtrack would need that digit to be `':'`. -/

namespace ChapterTableManager

/-- Does the list start with `\.\d{3}` (a dot and exactly three digits)? -/
def isDot3 : List Char → Bool
  | d :: a :: b :: c :: _ => d == '.' && a.isDigit && b.isDigit && c.isDigit
  | _ => false

/-- Length matched after the mandatory `\d{1,2}:\d{2}` prefix of `consumed`
characters, following the alternation preference: `:\d{2}\.\d{3}`, then
`\.\d{3}`, then `:\d{2}`, then nothing. -/
def matchCore (consumed : ℕ) (r : List Char) : ℕ :=
  match r with
  | x :: c :: d :: r3 =>
    if x == ':' && c.isDigit && d.isDigit then
      if isDot3 r3 then consumed + 7 else consumed + 3
    else if isDot3 r then consumed + 4 else consumed
  | _ => if isDot3 r then consumed + 4 else consumed

/-- Length of the time-pattern match starting exactly here, if any. -/
def matchTimeAt : List Char → Option ℕ
  | c1 :: c2 :: r2 =>
    if c1.isDigit then
      if c2.isDigit then
        match r2 with
        | y :: a :: b :: r3 =>
          if y == ':' && a.isDigit && b.isDigit then some (matchCore 5 r3) else none
        | _ => none
      else if c2 = ':' then
        match r2 with
        | a :: b :: r3 =>
          if a.isDigit && b.isDigit then some (matchCore 4 r3) else none
        | _ => none
      else none
    else none
  | _ => none

/-- `re.finditer`: scan left to right; after a match of length `L` the next
`L - 1` positions are skipped (matches do not overlap).  Returns
`(start, length)` pairs; `i` is the absolute index of the head and `skip` the
number of positions still inside the previous match. -/
def scanAux : List Char → ℕ → ℕ → List (ℕ × ℕ)
  | [], _, _ => []
  | c :: tl, i, 0 =>
    match matchTimeAt (c :: tl) with
    | some L => (i, L) :: scanAux tl (i + 1) (L - 1)
    | none => scanAux tl (i + 1) 0
  | _ :: tl, i, skip + 1 => scanAux tl (i + 1) skip

/-- All matches of the time pattern in a line. -/
def scanMatches (cs : List Char) : List (ℕ × ℕ) := scanAux cs 0 0

/-- The matched token texts, in scan order. -/
def tokensOf (cs : List Char) : List (List Char) :=
  (scanMatches cs).map fun p => seg cs p.1 (p.1 + p.2)

/-- Canonical rendering `f"{hours}:{minutes:02d}:{seconds:02d}.{ms_part}"`. -/
def renderTime (h m s : ℤ) (msp : List Char) : List Char :=
  intDigits h ++ ':' :: pad2 m ++ ':' :: pad2 s ++ '.' ::
    (msp ++ List.replicate (3 - msp.length) '0').take 3

/-- `ChapterTableManager._normalize_time`.  `none` models the `ValueError`
raised by `int()` on a non-numeric field. -/
def normalize_time (ts : List Char) : Option (List Char) :=
  let parts := splitOnChar '.' ts
  let timePart := parts.headD []
  let msPart := match parts with
    | _ :: m :: _ => m
    | _ => ['0', '0', '0']
  match splitOnChar ':' timePart with
  | [a, b] => do
    let mv ← pyInt a
    let sv ← pyInt b
    some (renderTime 0 mv sv msPart)
  | [a, b, c] => do
    let hv ← pyInt a
    let mv ← pyInt b
    let sv ← pyInt c
    some (renderTime hv mv sv msPart)
  | _ => some ts

/-- Single-line mode: each token is a separator; the title of entry `i` is the
text strictly between token `i` and token `i+1` (or end of line), stripped,
then with a leading `[-\s]+` run removed; empty titles are dropped (but
`_normalize_time` is still evaluated first, as in the source). -/
def emitSingle (line : List Char) : List (ℕ × ℕ) → Option (List (List Char × List Char))
  | [] => some []
  | (st, L) :: rest => do
    let title0 := match rest with
      | (st2, _) :: _ => pyStrip (seg line (st + L) st2)
      | [] => pyStrip (line.drop (st + L))
    let title := lstripDash title0
    let nt ← normalize_time (seg line st (st + L))
    let tail ← emitSingle line rest
    some (if title ≠ [] then (nt, title) :: tail else tail)

/-- Line mode: for each token, candidate titles are the stripped text before
it (since the previous token, `prevEnd`) and after it (up to the next token or
line end); "after" is preferred when non-empty. -/
def emitEntries (line : List Char) : ℕ → List (ℕ × ℕ) → Option (List (List Char × List Char))
  | _, [] => some []
  | prevEnd, (st, L) :: rest => do
    let before := pyStrip (seg line prevEnd st)
    let after := match rest with
      | (st2, _) :: _ => pyStrip (seg line (st + L) st2)
      | [] => pyStrip (line.drop (st + L))
    let title := lstripDash (if after ≠ [] then after else before)
    let nt ← normalize_time (seg line st (st + L))
    let tail ← emitEntries line (st + L) rest
    some (if title ≠ [] then (nt, title) :: tail else tail)

/-- Line mode over all lines: strip each line, scan it, emit its entries. -/
def branchB : List (List Char) → Option (List (List Char × List Char))
  | [] => some []
  | l :: ls => do
    let l' := pyStrip l
    let cur ← emitEntries l' 0 (scanMatches l')
    let rest ← branchB ls
    some (cur ++ rest)

/-- `ChapterTableManager._parse_youtube_chapters`.  `none` models an uncaught
exception (which the totality theorem shows never happens). -/
def parse_youtube_chapters (text : String) : Option (List (String × String)) :=
  let stripped := pyStrip text.toList
  let lines := splitOnChar '\n' stripped
  let res :=
    match lines with
    | [l0] =>
      if l0 ≠ [] then
        let ms := scanMatches l0
        if 1 < ms.length then emitSingle l0 ms else branchB lines
      else branchB lines
    | _ => branchB lines
  res.map (List.map fun p => (p.1.asString, p.2.asString))

/-! #### Specification predicates over tokens and normalized strings -/

/-- Every character of the list is an ASCII digit. -/
def digitsOnly (l : List Char) : Prop := ∀ c ∈ l, c.isDigit = true

/-- The possible tails of a time token after the `\d{1,2}:\d{2}` prefix:
nothing, `\.\d{3}`, `:\d{2}`, or `:\d{2}\.\d{3}`. -/
def RestOK (rest : List Char) : Prop :=
  rest = [] ∨
  (∃ f3, rest = '.' :: f3 ∧ f3.length = 3 ∧ digitsOnly f3) ∨
  (∃ s2 tl2, rest = ':' :: s2 ++ tl2 ∧ s2.length = 2 ∧ digitsOnly s2 ∧
    (tl2 = [] ∨ ∃ f3, tl2 = '.' :: f3 ∧ f3.length = 3 ∧ digitsOnly f3))

/-- What a matched time token looks like:
`\d{1,2}:\d{2}(:\d{2})?(\.\d{3})?` — note the three-digit fraction. -/
def TokenShape (t : List Char) : Prop :=
  ∃ hd m2 rest, t = hd ++ ':' :: m2 ++ rest ∧
    (hd.length = 1 ∨ hd.length = 2) ∧ digitsOnly hd ∧
    m2.length = 2 ∧ digitsOnly m2 ∧ RestOK rest

/-- The canonical normalized form `digits ':' 2-digits ':' 2-digits '.' 3-digits`. -/
def TimeShapeOK (t : List Char) : Prop :=
  ∃ hd m2 s2 f3, t = hd ++ ':' :: m2 ++ ':' :: s2 ++ '.' :: f3 ∧
    hd ≠ [] ∧ digitsOnly hd ∧ m2.length = 2 ∧ digitsOnly m2 ∧
    s2.length = 2 ∧ digitsOnly s2 ∧ f3.length = 3 ∧ digitsOnly f3

end ChapterTableManager

/-! ### Specification predicates for `to_string` output -/

/-- What `to_string(true)` produces: hours in plain (unpadded) decimal, a
2-digit minute field equal to `minutes`, and a seconds field `SS.cc` whose
two-digit integer and fraction parts carry `rndHalfEvenInt (100 * seconds)`
split at 100 — i.e. exactly two fraction digits. -/
def FormatTrueOK (t : TimePosition) : Prop :=
  ∃ M S F, splitOnChar ':' ((t.to_string true).toList) =
      [natDigits t.hours.toNat, M, S ++ '.' :: F] ∧
    M.length = 2 ∧ M.all Char.isDigit = true ∧ (digitsVal M : ℤ) = t.minutes ∧
    S.length = 2 ∧ S.all Char.isDigit = true ∧
    F.length = 2 ∧ F.all Char.isDigit = true ∧
    (digitsVal S : ℤ) = rndHalfEvenInt (100 * t.seconds) / 100 ∧
    (digitsVal F : ℤ) = rndHalfEvenInt (100 * t.seconds) % 100

/-- What `to_string(false)` produces: the same hour and minute fields, a
2-digit seconds field holding the truncated seconds, and no dot at all. -/
def FormatFalseOK (t : TimePosition) : Prop :=
  ∃ M S, splitOnChar ':' ((t.to_string false).toList) =
      [natDigits t.hours.toNat, M, S] ∧
    M.length = 2 ∧ (digitsVal M : ℤ) = t.minutes ∧
    S.length = 2 ∧ S.all Char.isDigit = true ∧ (digitsVal S : ℤ) = pyTrunc t.seconds ∧
    ∀ c ∈ (t.to_string false).toList, c ≠ '.'

/-! ### Binary64 model for the millisecond round trip

`TimePosition.from_milliseconds` and `to_milliseconds` compute with Python
floats.  The following models binary64 arithmetic exactly in the normal
range: a float is an integer mantissa times a power of two, and every
operation result is rounded to 53 significant bits, to nearest, ties to even
(overflow and subnormals never occur at the magnitudes evaluated here).
Python's float `divmod` has an exact remainder (`fmod` is exact) and its
quotient — a small integer here — is represented exactly, so `divmod` is
modelled by exact floor and subtraction. -/

/-- Fuel-based `⌊log₂ n⌋` (kernel-evaluable). -/
def natLog2Aux : ℕ → ℕ → ℕ
  | 0, _ => 0
  | f + 1, n => if n < 2 then 0 else natLog2Aux f (n / 2) + 1

def natLog2 (n : ℕ) : ℕ := natLog2Aux n n

/-- A binary64 value `m * 2 ^ e` (mantissa and binary exponent). -/
structure F64 where
  m : ℤ
  e : ℤ
deriving DecidableEq, Repr

/-- Round `q + r / b` (with `0 ≤ r < b`) to the nearest integer, ties to
even. -/
def roundHE (q r b : ℕ) : ℕ :=
  if 2 * r < b then q
  else if b < 2 * r then q + 1
  else if q % 2 = 0 then q else q + 1

/-- Is `2 ^ e ≤ a / b` (for positive naturals `a`, `b`)? -/
def pow2LE (b a : ℕ) (e : ℤ) : Bool :=
  if 0 ≤ e then b * 2 ^ e.toNat ≤ a else b ≤ a * 2 ^ (-e).toNat

/-- The binary64 value nearest to `a / b` (`a`, `b` naturals, `b > 0`):
scale `a / b` into `[2^52, 2^53)`, round half-even, keep the scale. -/
def rnd53Pos (a b : ℕ) : F64 :=
  let e0 : ℤ := (natLog2 a : ℤ) - (natLog2 b : ℤ)
  let e : ℤ := if pow2LE b a e0 then e0 else e0 - 1
  let k : ℤ := 52 - e
  let nd := if 0 ≤ k then (a * 2 ^ k.toNat, b) else (a, b * 2 ^ (-k).toNat)
  ⟨(roundHE (nd.1 / nd.2) (nd.1 % nd.2) nd.2 : ℤ), -k⟩

/-- Round an exact (non-negative) dyadic value to binary64. -/
def rnd53F (x : F64) : F64 :=
  if x.m = 0 then ⟨0, 0⟩
  else if 0 ≤ x.e then rnd53Pos (x.m.toNat * 2 ^ x.e.toNat) 1
  else rnd53Pos x.m.toNat (2 ^ (-x.e).toNat)

/-- `⌊x / d⌋` for a float `x` and a positive integer `d` (the quotient of
Python's float `divmod`, exact at the magnitudes evaluated here). -/
def F64.floorDiv (x : F64) (d : ℕ) : ℤ :=
  if 0 ≤ x.e then (x.m * 2 ^ x.e.toNat).fdiv d else x.m.fdiv (d * 2 ^ (-x.e).toNat)

/-- `x - n` for an integer `n`, exact (the remainder of float `divmod`:
`fmod` is exact). -/
def F64.subInt (x : F64) (n : ℤ) : F64 :=
  if 0 ≤ x.e then ⟨x.m * 2 ^ x.e.toNat - n, 0⟩ else ⟨x.m - n * 2 ^ (-x.e).toNat, x.e⟩

/-- Float times an integer constant: exact product, then binary64 rounding. -/
def F64.mulNat (x : F64) (c : ℕ) : F64 := rnd53F ⟨x.m * c, x.e⟩

/-- Python `int + float`: the int converts to a float (exactly, at the sizes
evaluated here), the addition rounds. -/
def F64.intAdd (n : ℤ) (x : F64) : F64 :=
  rnd53F (if 0 ≤ x.e then ⟨n + x.m * 2 ^ x.e.toNat, 0⟩ else ⟨n * 2 ^ (-x.e).toNat + x.m, x.e⟩)

/-- Python `int(x)` on a float: truncation toward zero. -/
def F64.trunc (x : F64) : ℤ :=
  if 0 ≤ x.e then x.m * 2 ^ x.e.toNat
  else if 0 ≤ x.m then x.m.fdiv (2 ^ (-x.e).toNat)
  else -((-x.m).fdiv (2 ^ (-x.e).toNat))

/-- `TimePosition.from_milliseconds` under binary64 semantics:
`ms / 1000` is true division (rounds), then two exact `divmod`s. -/
def from_milliseconds_float (ms : ℕ) : ℤ × ℤ × F64 :=
  let ts := rnd53Pos ms 1000
  let h := ts.floorDiv 3600
  let r1 := ts.subInt (3600 * h)
  let mi := r1.floorDiv 60
  (h, mi, r1.subInt (60 * mi))

/-- `TimePosition.to_milliseconds` under binary64 semantics:
`int(hours * 3600000 + minutes * 60000 + seconds * 1000)` — the integer part
is exact, `seconds * 1000` rounds, the addition rounds, `int()` truncates. -/
def to_milliseconds_float (h mi : ℤ) (s : F64) : ℤ :=
  (F64.intAdd (h * 3600000 + mi * 60000) (s.mulNat 1000)).trunc

/-! ### Support lemmas: characters and digits -/

theorem isDigit_toNat {c : Char} (h : c.isDigit = true) : 48 ≤ c.toNat ∧ c.toNat ≤ 57 := by
  simp [Char.isDigit, Char.le_def, UInt32.le_def] at h
  exact ⟨h.1, h.2⟩

theorem isDigit_ne_dot {c : Char} (h : c.isDigit = true) : c ≠ '.' := by
  rintro rfl; exact absurd h (by decide)

theorem isDigit_ne_colon {c : Char} (h : c.isDigit = true) : c ≠ ':' := by
  rintro rfl; exact absurd h (by decide)

theorem isDigit_ne_newline {c : Char} (h : c.isDigit = true) : c ≠ '\n' := by
  rintro rfl; exact absurd h (by decide)

theorem isDigit_ne_dash {c : Char} (h : c.isDigit = true) : c ≠ '-' := by
  rintro rfl; exact absurd h (by decide)

theorem isDigit_not_ws {c : Char} (h : c.isDigit = true) : c.isWhitespace = false := by
  by_contra hw
  simp only [Bool.not_eq_false] at hw
  simp [Char.isWhitespace] at hw
  rcases hw with ((rfl | rfl) | rfl) | rfl <;> exact absurd h (by decide)

theorem digitChar_isDigit {n : ℕ} (h : n < 10) : (Nat.digitChar n).isDigit = true := by
  interval_cases n <;> decide

theorem dval_digitChar {n : ℕ} (h : n < 10) : dval (Nat.digitChar n) = n := by
  interval_cases n <;> decide

theorem dval_le_9 {c : Char} (h : c.isDigit = true) : dval c ≤ 9 := by
  have := isDigit_toNat h
  unfold dval
  omega

theorem natDigitsAux_small {f n : ℕ} (hf : 0 < f) (hn : n < 10) :
    natDigitsAux f n = [Nat.digitChar n] := by
  cases f with
  | zero => omega
  | succ f => simp [natDigitsAux, hn]

theorem natDigits_small {n : ℕ} (hn : n < 10) : natDigits n = [Nat.digitChar n] :=
  natDigitsAux_small (by omega) hn

theorem natDigits_two {n : ℕ} (h10 : 10 ≤ n) (h100 : n < 100) :
    natDigits n = [Nat.digitChar (n / 10), Nat.digitChar (n % 10)] := by
  unfold natDigits
  rw [natDigitsAux, if_neg (by omega), natDigitsAux_small (by omega) (by omega)]
  rfl

theorem natDigitsAux_all_digits : ∀ f n, (natDigitsAux f n).all Char.isDigit = true := by
  intro f
  induction f with
  | zero => intro n; rfl
  | succ f ih =>
    intro n
    rw [natDigitsAux]
    by_cases hn : n < 10
    · simp [hn, digitChar_isDigit hn]
    · simp [hn, List.all_append, ih (n / 10), digitChar_isDigit (Nat.mod_lt n (by omega))]

theorem natDigits_all_digits (n : ℕ) : (natDigits n).all Char.isDigit = true :=
  natDigitsAux_all_digits (n + 1) n

theorem natDigits_ne_nil (n : ℕ) : natDigits n ≠ [] := by
  unfold natDigits
  rw [natDigitsAux]
  by_cases hn : n < 10 <;> simp [hn]

theorem twoDigits_spec {m : ℕ} (hm : m ≤ 99) :
    ∃ a b, twoDigits m = [a, b] ∧ a.isDigit = true ∧ b.isDigit = true ∧
      10 * dval a + dval b = m := by
  unfold twoDigits
  by_cases h : m < 10
  · refine ⟨'0', Nat.digitChar m, by simp [h], by decide, digitChar_isDigit h, ?_⟩
    rw [dval_digitChar h]
    have h0 : dval '0' = 0 := rfl
    omega
  · rw [if_neg h, natDigits_two (by omega) (by omega)]
    refine ⟨_, _, rfl, digitChar_isDigit (by omega), digitChar_isDigit (Nat.mod_lt m (by omega)), ?_⟩
    rw [dval_digitChar (by omega), dval_digitChar (Nat.mod_lt m (by omega))]
    omega

theorem digitsValAux_lt (l : List Char) : l.all Char.isDigit = true →
    ∀ acc : ℕ, digitsValAux acc l < (acc + 1) * 10 ^ l.length := by
  induction l with
  | nil =>
    intro _ acc
    rw [show digitsValAux acc [] = acc from rfl, List.length_nil, pow_zero]
    omega
  | cons c r ih =>
    intro hl acc
    rw [List.all_cons, Bool.and_eq_true] at hl
    have hc := dval_le_9 hl.1
    have h2 := ih hl.2 (10 * acc + dval c)
    have h3 : (10 * acc + dval c + 1) * 10 ^ r.length ≤ ((acc + 1) * 10) * 10 ^ r.length :=
      mul_le_mul_right' (by omega) _
    rw [show digitsValAux acc (c :: r) = digitsValAux (10 * acc + dval c) r from rfl,
      List.length_cons, pow_succ,
      show (acc + 1) * (10 ^ r.length * 10) = ((acc + 1) * 10) * 10 ^ r.length from by ring]
    omega

theorem digitsVal_lt {l : List Char} (hl : l.all Char.isDigit = true) :
    digitsVal l < 10 ^ l.length := by
  have := digitsValAux_lt l hl 0
  simpa [digitsVal] using this

/-! ### Evaluation lemmas for the rational model -/

theorem rndHalfEvenInt_int (n : ℤ) : rndHalfEvenInt (n : ℚ) = n := by
  unfold rndHalfEvenInt
  rw [Int.floor_intCast]
  norm_num

theorem fmt52_int {k : ℤ} (hk : 0 ≤ k) :
    fmt52 (k : ℚ) = twoDigits k.toNat ++ ['.', '0', '0'] := by
  unfold fmt52
  have h1 : (100 : ℚ) * (k : ℚ) = ((100 * k : ℤ) : ℚ) := by push_cast; ring
  rw [h1, rndHalfEvenInt_int, if_pos (by omega : (0 : ℤ) ≤ 100 * k)]
  have h2 : (100 * k).toNat = 100 * k.toNat := by omega
  rw [h2, Nat.mul_div_cancel_left _ (by omega), Nat.mul_mod_right]
  rfl

theorem pyTrunc_int (n : ℤ) : pyTrunc (n : ℚ) = n := by
  unfold pyTrunc
  by_cases h : (0 : ℚ) ≤ (n : ℚ)
  · rw [if_pos h, Int.floor_intCast]
  · rw [if_neg h, ← Int.cast_neg, Int.floor_intCast]; omega

/-! ### C1 and the concrete chapter-parser facts -/

/-- C1: the claim `from_milliseconds(m).to_milliseconds() = m` for every
`m ≥ 0` fails on the code: under the binary64 semantics the code actually
uses, `m = 1001` comes back as `1000` (the stored float for `1.001` is just
below it, and `int(seconds * 1000)` truncates). -/
theorem c1_round_trip_fails_at_1001 :
    to_milliseconds_float (from_milliseconds_float 1001).1
      (from_milliseconds_float 1001).2.1 (from_milliseconds_float 1001).2.2 = 1000 ∧
    (1000 : ℤ) ≠ 1001 := ⟨by decide, by decide⟩

/-- C2 (counterexample): the single-line example does not produce the titles
`"Intro"`, `"Verse"`, `"Chorus"` — the `" - "` separator before each later
time stamp is kept at the end of the preceding title. -/
theorem c2_titles_counterexample :
    ChapterTableManager.parse_youtube_chapters "0:00 Intro - 1:30 Verse - 3:45 Chorus" ≠
      some [("0:00:00.000", "Intro"), ("0:01:30.000", "Verse"), ("0:03:45.000", "Chorus")] := by
  decide

/-- C2 (amended): the three entries are produced in order with those times,
but only a *leading* run of `-`/whitespace is stripped from a title; the
separator before the next time stamp stays, giving `"Intro -"`, `"Verse -"`,
`"Chorus"`. -/
theorem c2_single_line_parse :
    ChapterTableManager.parse_youtube_chapters "0:00 Intro - 1:30 Verse - 3:45 Chorus" =
      some [("0:00:00.000", "Intro -"), ("0:01:30.000", "Verse -"), ("0:03:45.000", "Chorus")] := by
  decide

/-- C7 (counterexample): scanning `"1:30.5"` produces the token `"1:30"`,
not `"1:30.5"` — a 1- or 2-digit fraction is *not* part of the token, because
every fractional alternative of the scanning regex requires exactly three
digits. -/
theorem c7_short_fraction_counterexample :
    ChapterTableManager.tokensOf "1:30.5".toList = ["1:30".toList] ∧
      "1:30".toList ≠ "1:30.5".toList := ⟨by decide, by decide⟩

/-- C5 (counterexample): `from_string` does not right-pad a short fraction:
`"1:02:03.5"` parses with seconds `3.005` (the fraction digits are read as a
millisecond count), not `3.5`. -/
theorem c5_fraction_counterexample :
    (TimePosition.from_string "1:02:03.5").map TimePosition.seconds ≠ some (35 / 10 : ℚ) ∧
    (TimePosition.from_string "1:02:03.5").map TimePosition.seconds = some (3005 / 1000 : ℚ) := by
  have hp : TimePosition.parseHMSF "1:02:03.5".toList = some (1, 2, 3, 5) := by decide
  constructor
  · simp only [TimePosition.from_string, hp, Option.map_some, ne_eq, Option.some.injEq]
    norm_num
  · simp only [TimePosition.from_string, hp, Option.map_some, Option.some.injEq]
    norm_num

/-- C3 (counterexample): `to_string(true)` renders the fractional part with
exactly two digits, not three: the zero time position prints `"0:00:00.00"`,
not the claimed canonical `"0:00:00.000"`. -/
theorem c3_two_digit_fraction_counterexample :
    (TimePosition.mk 0 0 0).to_string true = "0:00:00.00" ∧
      "0:00:00.00" ≠ "0:00:00.000" := by
  constructor
  · have h0 : ((0 : ℤ) : ℚ) = (0 : ℚ) := by norm_num
    have h2 : fmt52 (0 : ℚ) = twoDigits (0 : ℤ).toNat ++ ['.', '0', '0'] := by
      rw [← h0]; exact fmt52_int le_rfl
    show (intDigits 0 ++ ':' :: pad2 0 ++ ':' :: fmt52 (0 : ℚ)).asString = _
    rw [h2]
    decide
  · decide

/-! ### Support lemmas: splitting, stripping, parsing integers -/

theorem isDigit_ne_plus {c : Char} (h : c.isDigit = true) : c ≠ '+' := by
  rintro rfl; exact absurd h (by decide)

theorem splitOnChar_cons (sep c : Char) (r : List Char) :
    splitOnChar sep (c :: r) =
      match splitOnChar sep r with
      | [] => if c = sep then [[], []] else [[c]]
      | s :: ss => if c = sep then [] :: s :: ss else (c :: s) :: ss := rfl

theorem splitOnChar_ne_nil (sep : Char) (l : List Char) : splitOnChar sep l ≠ [] := by
  cases l with
  | nil => simp [splitOnChar]
  | cons c r =>
    rw [splitOnChar_cons]
    cases splitOnChar sep r with
    | nil => by_cases h : c = sep <;> simp [h]
    | cons s ss => by_cases h : c = sep <;> simp [h]

theorem splitOnChar_sepFree {sep : Char} {l : List Char} (h : ∀ c ∈ l, c ≠ sep) :
    splitOnChar sep l = [l] := by
  induction l with
  | nil => rfl
  | cons c r ih =>
    rw [splitOnChar_cons, ih (fun x hx => h x (List.mem_cons_of_mem _ hx))]
    simp [h c (List.mem_cons_self _ _)]

theorem splitOnChar_append_sep {sep : Char} {l₁ l₂ : List Char} (h : ∀ c ∈ l₁, c ≠ sep) :
    splitOnChar sep (l₁ ++ sep :: l₂) = l₁ :: splitOnChar sep l₂ := by
  induction l₁ with
  | nil =>
    rw [List.nil_append, splitOnChar_cons]
    cases h2 : splitOnChar sep l₂ with
    | nil => exact absurd h2 (splitOnChar_ne_nil _ _)
    | cons s ss => simp
  | cons c r ih =>
    rw [List.cons_append, splitOnChar_cons, ih (fun x hx => h x (List.mem_cons_of_mem _ hx))]
    simp [h c (List.mem_cons_self _ _)]

theorem pyStrip_all_ws {l : List Char} (h : ∀ c ∈ l, c.isWhitespace = true) :
    pyStrip l = [] := by
  unfold pyStrip
  rw [List.dropWhile_eq_nil_iff.2 (fun x hx => h x hx)]
  simp

theorem pyStrip_no_ws {l : List Char} (h : ∀ c ∈ l, c.isWhitespace = false) :
    pyStrip l = l := by
  unfold pyStrip
  have h1 : l.dropWhile Char.isWhitespace = l := by
    cases l with
    | nil => rfl
    | cons c r => rw [List.dropWhile_cons_of_neg (by simp [h c (List.mem_cons_self _ _)])]
  rw [h1]
  have h2 : l.reverse.dropWhile Char.isWhitespace = l.reverse := by
    cases hr : l.reverse with
    | nil => rfl
    | cons c r =>
      rw [List.dropWhile_cons_of_neg]
      have : c ∈ l := by
        rw [← List.mem_reverse, hr]; exact List.mem_cons_self _ _
      simp [h c this]
  rw [h2, List.reverse_reverse]

theorem pyInt_digits {l : List Char} (hne : l ≠ []) (hd : l.all Char.isDigit = true) :
    pyInt l = some (digitsVal l : ℤ) := by
  have hnw : ∀ c ∈ l, c.isWhitespace = false := fun c hc =>
    isDigit_not_ws (by rw [List.all_eq_true] at hd; exact hd c hc)
  unfold pyInt
  rw [pyStrip_no_ws hnw]
  cases l with
  | nil => exact absurd rfl hne
  | cons c r =>
    have hc : c.isDigit = true := by
      rw [List.all_eq_true] at hd; exact hd c (List.mem_cons_self _ _)
    have hplus := isDigit_ne_plus hc
    have hminus := isDigit_ne_dash hc
    split
    · rename_i ds heq
      exact absurd (List.head_eq_of_cons_eq heq) hplus
    · rename_i ds heq
      exact absurd (List.head_eq_of_cons_eq heq) hminus
    · unfold pyIntDigits
      rw [if_pos ⟨hne, hd⟩]

/-! ### Shape lemmas for scanned time tokens -/

namespace ChapterTableManager

theorem digitsOnly_one {c : Char} (hc : c.isDigit = true) : digitsOnly [c] := by
  intro a ha
  simp only [List.mem_singleton] at ha
  subst ha; exact hc

theorem digitsOnly_two {c d : Char} (hc : c.isDigit = true) (hd : d.isDigit = true) :
    digitsOnly [c, d] := by
  intro a ha
  simp only [List.mem_cons, List.not_mem_nil, or_false] at ha
  rcases ha with rfl | rfl <;> assumption

theorem digitsOnly_three {c d e : Char} (hc : c.isDigit = true) (hd : d.isDigit = true)
    (he : e.isDigit = true) : digitsOnly [c, d, e] := by
  intro a ha
  simp only [List.mem_cons, List.not_mem_nil, or_false] at ha
  rcases ha with rfl | rfl | rfl <;> assumption

theorem isDot3_spec {r : List Char} (h : isDot3 r = true) :
    ∃ e f g r5, r = '.' :: e :: f :: g :: r5 ∧
      e.isDigit = true ∧ f.isDigit = true ∧ g.isDigit = true := by
  rcases r with _ | ⟨d, _ | ⟨e, _ | ⟨f, _ | ⟨g, r5⟩⟩⟩⟩
  · exact absurd h (by simp [isDot3])
  · exact absurd h (by simp [isDot3])
  · exact absurd h (by simp [isDot3])
  · exact absurd h (by simp [isDot3])
  · rw [show isDot3 (d :: e :: f :: g :: r5) =
        (d == '.' && e.isDigit && f.isDigit && g.isDigit) from rfl,
      Bool.and_eq_true, Bool.and_eq_true, Bool.and_eq_true, beq_iff_eq] at h
    obtain ⟨⟨⟨rfl, he⟩, hf⟩, hg⟩ := h
    exact ⟨e, f, g, r5, rfl, he, hf, hg⟩

theorem matchCore_rest (consumed : ℕ) (r : List Char) :
    ∃ n, matchCore consumed r = consumed + n ∧ RestOK (r.take n) := by
  rcases r with _ | ⟨x, _ | ⟨c, _ | ⟨d, r3⟩⟩⟩
  · exact ⟨0, by simp [matchCore, isDot3], Or.inl rfl⟩
  · exact ⟨0, by simp [matchCore, isDot3], Or.inl rfl⟩
  · exact ⟨0, by simp [matchCore, isDot3], Or.inl rfl⟩
  · rw [show matchCore consumed (x :: c :: d :: r3) =
        (if x == ':' && c.isDigit && d.isDigit then
          if isDot3 r3 then consumed + 7 else consumed + 3
        else if isDot3 (x :: c :: d :: r3) then consumed + 4 else consumed) from rfl]
    by_cases h1 : (x == ':' && c.isDigit && d.isDigit) = true
    · rw [if_pos h1]
      rw [Bool.and_eq_true, Bool.and_eq_true, beq_iff_eq] at h1
      obtain ⟨⟨rfl, hc⟩, hd⟩ := h1
      by_cases h2 : isDot3 r3 = true
      · obtain ⟨e, f, g, r5, rfl, he, hf, hg⟩ := isDot3_spec h2
        refine ⟨7, by rw [if_pos h2], Or.inr (Or.inr ⟨[c, d], ['.', e, f, g], rfl,
          rfl, digitsOnly_two hc hd, Or.inr ⟨[e, f, g], rfl, rfl, digitsOnly_three he hf hg⟩⟩)⟩
      · rw [if_neg h2]
        exact ⟨3, rfl, Or.inr (Or.inr ⟨[c, d], [], rfl, rfl, digitsOnly_two hc hd, Or.inl rfl⟩)⟩
    · rw [if_neg h1]
      by_cases h2 : isDot3 (x :: c :: d :: r3) = true
      · obtain ⟨e, f, g, r5, heq, he, hf, hg⟩ := isDot3_spec h2
        obtain ⟨rfl, rfl, rfl, rfl⟩ : x = '.' ∧ c = e ∧ d = f ∧ r3 = g :: r5 := by
          injection heq with a1 t1; injection t1 with a2 t2; injection t2 with a3 t3
          exact ⟨a1, a2, a3, t3⟩
        exact ⟨4, by rw [if_pos h2], Or.inr (Or.inl ⟨[c, d, g], rfl, rfl,
          digitsOnly_three he hf hg⟩)⟩
      · exact ⟨0, by rw [if_neg h2]; omega, Or.inl rfl⟩

theorem take_five_chars {α : Type} (n : ℕ) (a1 a2 a3 a4 a5 : α) (l : List α) :
    (a1 :: a2 :: a3 :: a4 :: a5 :: l).take (5 + n) = a1 :: a2 :: a3 :: a4 :: a5 :: l.take n := by
  rw [show 5 + n = n.succ.succ.succ.succ.succ from by omega]; rfl

theorem take_four_chars {α : Type} (n : ℕ) (a1 a2 a3 a4 : α) (l : List α) :
    (a1 :: a2 :: a3 :: a4 :: l).take (4 + n) = a1 :: a2 :: a3 :: a4 :: l.take n := by
  rw [show 4 + n = n.succ.succ.succ.succ from by omega]; rfl

theorem matchTimeAt_shape {cs : List Char} {L : ℕ} (h : matchTimeAt cs = some L) :
    TokenShape (cs.take L) ∧ 1 ≤ L := by
  rcases cs with _ | ⟨c1, _ | ⟨c2, r2⟩⟩
  · exact absurd h (by simp [matchTimeAt])
  · exact absurd h (by simp [matchTimeAt])
  simp only [matchTimeAt] at h
  by_cases hc1 : c1.isDigit = true
  swap
  · rw [if_neg hc1] at h; cases h
  rw [if_pos hc1] at h
  by_cases hc2 : c2.isDigit = true
  · rw [if_pos hc2] at h
    rcases r2 with _ | ⟨y, _ | ⟨a, _ | ⟨b, r3⟩⟩⟩ <;> [skip; skip; skip; skip] <;>
      first
      | cases h
      | (dsimp only at h
         by_cases h1 : (y == ':' && a.isDigit && b.isDigit) = true
         swap
         · rw [if_neg h1] at h; cases h
         rw [if_pos h1] at h
         rw [Bool.and_eq_true, Bool.and_eq_true, beq_iff_eq] at h1
         obtain ⟨⟨rfl, ha⟩, hb⟩ := h1
         obtain ⟨n, hn, hrest⟩ := matchCore_rest 5 r3
         rw [hn] at h
         obtain rfl : 5 + n = L := Option.some.inj h
         refine ⟨⟨[c1, c2], [a, b], r3.take n, by rw [take_five_chars]; rfl, Or.inr rfl,
           digitsOnly_two hc1 hc2, rfl, digitsOnly_two ha hb, hrest⟩, by omega⟩)
  · rw [if_neg hc2] at h
    by_cases hcol : c2 = ':'
    swap
    · rw [if_neg hcol] at h; cases h
    subst hcol
    rw [if_pos rfl] at h
    rcases r2 with _ | ⟨a, _ | ⟨b, r3⟩⟩ <;>
      first
      | cases h
      | (dsimp only at h
         by_cases h1 : (a.isDigit && b.isDigit) = true
         swap
         · rw [if_neg h1] at h; cases h
         rw [if_pos h1] at h
         rw [Bool.and_eq_true] at h1
         obtain ⟨ha, hb⟩ := h1
         obtain ⟨n, hn, hrest⟩ := matchCore_rest 4 r3
         rw [hn] at h
         obtain rfl : 4 + n = L := Option.some.inj h
         refine ⟨⟨[c1], [a, b], r3.take n, by rw [take_four_chars]; rfl, Or.inl rfl,
           digitsOnly_one hc1, rfl, digitsOnly_two ha hb, hrest⟩, by omega⟩)

end ChapterTableManager

/-! ### `_normalize_time` on scanned tokens -/

namespace ChapterTableManager

theorem digitsOnly_iff_all {l : List Char} : digitsOnly l ↔ l.all Char.isDigit = true := by
  rw [List.all_eq_true]; rfl

theorem digitsOnly_ne_dot {l : List Char} (h : digitsOnly l) : ∀ c ∈ l, c ≠ '.' :=
  fun c hc => isDigit_ne_dot (h c hc)

theorem digitsOnly_ne_colon {l : List Char} (h : digitsOnly l) : ∀ c ∈ l, c ≠ ':' :=
  fun c hc => isDigit_ne_colon (h c hc)

theorem digitsVal_le_99 {l : List Char} (h : digitsOnly l) (hlen : l.length ≤ 2) :
    digitsVal l ≤ 99 := by
  have h1 := digitsVal_lt (digitsOnly_iff_all.1 h)
  have h2 : (10 : ℕ) ^ l.length ≤ 10 ^ 2 :=
    Nat.pow_le_pow_right (by omega) hlen
  omega

theorem normalize_time_2_noFrac {a b : List Char} (ha : digitsOnly a) (hane : a ≠ [])
    (hb : digitsOnly b) (hbne : b ≠ []) :
    normalize_time (a ++ ':' :: b) =
      some (renderTime 0 (digitsVal a : ℤ) (digitsVal b : ℤ) ['0', '0', '0']) := by
  have hdot : ∀ c ∈ a ++ ':' :: b, c ≠ '.' := by
    intro c hc
    rcases List.mem_append.1 hc with h | h
    · exact digitsOnly_ne_dot ha c h
    · rcases List.mem_cons.1 h with rfl | h
      · decide
      · exact digitsOnly_ne_dot hb c h
  unfold normalize_time
  rw [splitOnChar_sepFree hdot]
  dsimp only [List.headD]
  rw [splitOnChar_append_sep (digitsOnly_ne_colon ha), splitOnChar_sepFree (digitsOnly_ne_colon hb)]
  dsimp only
  rw [pyInt_digits hane (digitsOnly_iff_all.1 ha), pyInt_digits hbne (digitsOnly_iff_all.1 hb)]
  rfl

theorem normalize_time_2_frac {a b f : List Char} (ha : digitsOnly a) (hane : a ≠ [])
    (hb : digitsOnly b) (hbne : b ≠ []) (hf : digitsOnly f) :
    normalize_time (a ++ ':' :: b ++ '.' :: f) =
      some (renderTime 0 (digitsVal a : ℤ) (digitsVal b : ℤ) f) := by
  have hassoc : a ++ ':' :: b ++ '.' :: f = (a ++ ':' :: b) ++ '.' :: f := by simp
  have hdot : ∀ c ∈ a ++ ':' :: b, c ≠ '.' := by
    intro c hc
    rcases List.mem_append.1 hc with h | h
    · exact digitsOnly_ne_dot ha c h
    · rcases List.mem_cons.1 h with rfl | h
      · decide
      · exact digitsOnly_ne_dot hb c h
  unfold normalize_time
  rw [hassoc, splitOnChar_append_sep hdot, splitOnChar_sepFree (digitsOnly_ne_dot hf)]
  dsimp only [List.headD]
  rw [splitOnChar_append_sep (digitsOnly_ne_colon ha), splitOnChar_sepFree (digitsOnly_ne_colon hb)]
  dsimp only
  rw [pyInt_digits hane (digitsOnly_iff_all.1 ha), pyInt_digits hbne (digitsOnly_iff_all.1 hb)]
  rfl

theorem normalize_time_3_noFrac {a b c : List Char} (ha : digitsOnly a) (hane : a ≠ [])
    (hb : digitsOnly b) (hbne : b ≠ []) (hc : digitsOnly c) (hcne : c ≠ []) :
    normalize_time (a ++ ':' :: b ++ ':' :: c) =
      some (renderTime (digitsVal a : ℤ) (digitsVal b : ℤ) (digitsVal c : ℤ) ['0', '0', '0']) := by
  have hdot : ∀ x ∈ a ++ ':' :: b ++ ':' :: c, x ≠ '.' := by
    intro x hx
    rcases List.mem_append.1 hx with h | h
    · rcases List.mem_append.1 h with h | h
      · exact digitsOnly_ne_dot ha x h
      · rcases List.mem_cons.1 h with rfl | h
        · decide
        · exact digitsOnly_ne_dot hb x h
    · rcases List.mem_cons.1 h with rfl | h
      · decide
      · exact digitsOnly_ne_dot hc x h
  have hassoc : a ++ ':' :: b ++ ':' :: c = a ++ ':' :: (b ++ ':' :: c) := by simp
  unfold normalize_time
  rw [splitOnChar_sepFree hdot]
  dsimp only [List.headD]
  rw [hassoc, splitOnChar_append_sep (digitsOnly_ne_colon ha),
    splitOnChar_append_sep (digitsOnly_ne_colon hb), splitOnChar_sepFree (digitsOnly_ne_colon hc)]
  dsimp only
  rw [pyInt_digits hane (digitsOnly_iff_all.1 ha), pyInt_digits hbne (digitsOnly_iff_all.1 hb),
    pyInt_digits hcne (digitsOnly_iff_all.1 hc)]
  rfl

theorem normalize_time_3_frac {a b c f : List Char} (ha : digitsOnly a) (hane : a ≠ [])
    (hb : digitsOnly b) (hbne : b ≠ []) (hc : digitsOnly c) (hcne : c ≠ [])
    (hf : digitsOnly f) :
    normalize_time (a ++ ':' :: b ++ ':' :: c ++ '.' :: f) =
      some (renderTime (digitsVal a : ℤ) (digitsVal b : ℤ) (digitsVal c : ℤ) f) := by
  have hdot : ∀ x ∈ a ++ ':' :: b ++ ':' :: c, x ≠ '.' := by
    intro x hx
    rcases List.mem_append.1 hx with h | h
    · rcases List.mem_append.1 h with h | h
      · exact digitsOnly_ne_dot ha x h
      · rcases List.mem_cons.1 h with rfl | h
        · decide
        · exact digitsOnly_ne_dot hb x h
    · rcases List.mem_cons.1 h with rfl | h
      · decide
      · exact digitsOnly_ne_dot hc x h
  have hassoc : a ++ ':' :: b ++ ':' :: c ++ '.' :: f = (a ++ ':' :: b ++ ':' :: c) ++ '.' :: f := by
    simp
  have hassoc2 : a ++ ':' :: b ++ ':' :: c = a ++ ':' :: (b ++ ':' :: c) := by simp
  unfold normalize_time
  rw [hassoc, splitOnChar_append_sep hdot, splitOnChar_sepFree (digitsOnly_ne_dot hf)]
  dsimp only [List.headD]
  rw [hassoc2, splitOnChar_append_sep (digitsOnly_ne_colon ha),
    splitOnChar_append_sep (digitsOnly_ne_colon hb), splitOnChar_sepFree (digitsOnly_ne_colon hc)]
  dsimp only
  rw [pyInt_digits hane (digitsOnly_iff_all.1 ha), pyInt_digits hbne (digitsOnly_iff_all.1 hb),
    pyInt_digits hcne (digitsOnly_iff_all.1 hc)]
  rfl

theorem renderTime_shape {hI mI sI : ℤ} {msp : List Char} (hh : 0 ≤ hI)
    (hm : 0 ≤ mI) (hm99 : mI ≤ 99) (hs : 0 ≤ sI) (hs99 : sI ≤ 99)
    (hmsp : digitsOnly msp) : TimeShapeOK (renderTime hI mI sI msp) := by
  have hms3 : ((msp ++ List.replicate (3 - msp.length) '0').take 3).length = 3 := by
    rw [List.length_take, List.length_append, List.length_replicate]
    omega
  have hms3d : digitsOnly ((msp ++ List.replicate (3 - msp.length) '0').take 3) := by
    intro x hx
    have := List.mem_of_mem_take hx
    rcases List.mem_append.1 this with h | h
    · exact hmsp x h
    · rw [List.eq_of_mem_replicate h]; decide
  unfold renderTime
  rw [show intDigits hI = natDigits hI.toNat from if_pos hh,
    show pad2 mI = twoDigits mI.toNat from if_pos hm,
    show pad2 sI = twoDigits sI.toNat from if_pos hs]
  obtain ⟨ma, mb, hmeq, hma, hmb, _⟩ := twoDigits_spec (show mI.toNat ≤ 99 by omega)
  obtain ⟨sa, sb, hseq, hsa, hsb, _⟩ := twoDigits_spec (show sI.toNat ≤ 99 by omega)
  refine ⟨natDigits hI.toNat, twoDigits mI.toNat, twoDigits sI.toNat, _, rfl,
    natDigits_ne_nil _, ?_, ?_, ?_, ?_, ?_, hms3, hms3d⟩
  · exact digitsOnly_iff_all.2 (natDigits_all_digits _)
  · rw [hmeq]; rfl
  · rw [hmeq]; exact digitsOnly_two hma hmb
  · rw [hseq]; rfl
  · rw [hseq]; exact digitsOnly_two hsa hsb

theorem normalize_token {t : List Char} (h : TokenShape t) :
    ∃ out, normalize_time t = some out ∧ TimeShapeOK out := by
  obtain ⟨hd, m2, rest, rfl, hlen, hhd, hm2len, hm2, hrest⟩ := h
  have hdne : hd ≠ [] := by
    intro hnil; rw [hnil] at hlen; simp at hlen
  have hm2ne : m2 ≠ [] := by
    intro hnil; rw [hnil] at hm2len; simp at hm2len
  have hdv : digitsVal hd ≤ 99 := digitsVal_le_99 hhd (by omega)
  have hm2v : digitsVal m2 ≤ 99 := digitsVal_le_99 hm2 (by omega)
  rcases hrest with rfl | ⟨f3, rfl, hf3len, hf3⟩ | ⟨s2, tl2, rfl, hs2len, hs2, htl⟩
  · rw [List.append_nil]
    rw [normalize_time_2_noFrac hhd hdne hm2 hm2ne]
    exact ⟨_, rfl, renderTime_shape le_rfl (by positivity) (by exact_mod_cast hdv)
      (by positivity) (by exact_mod_cast hm2v) (digitsOnly_three (by decide) (by decide) (by decide))⟩
  · rw [normalize_time_2_frac hhd hdne hm2 hm2ne hf3]
    exact ⟨_, rfl, renderTime_shape le_rfl (by positivity) (by exact_mod_cast hdv)
      (by positivity) (by exact_mod_cast hm2v) hf3⟩
  · have hs2ne : s2 ≠ [] := by
      intro hnil; rw [hnil] at hs2len; simp at hs2len
    have hs2v : digitsVal s2 ≤ 99 := digitsVal_le_99 hs2 (by omega)
    rcases htl with rfl | ⟨f3, rfl, hf3len, hf3⟩
    · rw [List.append_nil]
      rw [normalize_time_3_noFrac hhd hdne hm2 hm2ne hs2 hs2ne]
      exact ⟨_, rfl, renderTime_shape (by positivity) (by positivity) (by exact_mod_cast hm2v)
        (by positivity) (by exact_mod_cast hs2v)
        (digitsOnly_three (by decide) (by decide) (by decide))⟩
    · rw [← List.append_assoc, normalize_time_3_frac hhd hdne hm2 hm2ne hs2 hs2ne hf3]
      exact ⟨_, rfl, renderTime_shape (by positivity) (by positivity) (by exact_mod_cast hm2v)
        (by positivity) (by exact_mod_cast hs2v) hf3⟩

end ChapterTableManager

/-- C6: `_normalize_time` splits one optional millisecond suffix at `'.'`
(default `000`, right-padded with zeros and truncated to exactly three
digits), reads a 2-field integer part as `MM:SS` with hours `0` and a
3-field part as `H:MM:SS`, passes any other field count through unchanged,
and otherwise emits the canonical `H:MM:SS.mmm` string — stated universally
over the digit fields and an arbitrary-length fraction, with the spec's two
examples `"1:30" ↦ "0:01:30.000"` and `"1:02:03.5" ↦ "1:02:03.500"`. -/
theorem c6_normalize_time_spec :
    (∀ a b f : List Char, ChapterTableManager.digitsOnly a → a ≠ [] →
      ChapterTableManager.digitsOnly b → b ≠ [] → ChapterTableManager.digitsOnly f →
      ChapterTableManager.normalize_time (a ++ ':' :: b ++ '.' :: f) =
        some (intDigits 0 ++ ':' :: pad2 (digitsVal a : ℤ) ++ ':' :: pad2 (digitsVal b : ℤ) ++
          '.' :: (f ++ List.replicate (3 - f.length) '0').take 3)) ∧
    (∀ a b : List Char, ChapterTableManager.digitsOnly a → a ≠ [] →
      ChapterTableManager.digitsOnly b → b ≠ [] →
      ChapterTableManager.normalize_time (a ++ ':' :: b) =
        some (intDigits 0 ++ ':' :: pad2 (digitsVal a : ℤ) ++ ':' :: pad2 (digitsVal b : ℤ) ++
          '.' :: ['0', '0', '0'])) ∧
    (∀ a b c f : List Char, ChapterTableManager.digitsOnly a → a ≠ [] →
      ChapterTableManager.digitsOnly b → b ≠ [] →
      ChapterTableManager.digitsOnly c → c ≠ [] → ChapterTableManager.digitsOnly f →
      ChapterTableManager.normalize_time (a ++ ':' :: b ++ ':' :: c ++ '.' :: f) =
        some (intDigits (digitsVal a : ℤ) ++ ':' :: pad2 (digitsVal b : ℤ) ++
          ':' :: pad2 (digitsVal c : ℤ) ++
          '.' :: (f ++ List.replicate (3 - f.length) '0').take 3)) ∧
    (∀ a b c : List Char, ChapterTableManager.digitsOnly a → a ≠ [] →
      ChapterTableManager.digitsOnly b → b ≠ [] →
      ChapterTableManager.digitsOnly c → c ≠ [] →
      ChapterTableManager.normalize_time (a ++ ':' :: b ++ ':' :: c) =
        some (intDigits (digitsVal a : ℤ) ++ ':' :: pad2 (digitsVal b : ℤ) ++
          ':' :: pad2 (digitsVal c : ℤ) ++ '.' :: ['0', '0', '0'])) ∧
    (∀ ts : List Char,
      (splitOnChar ':' ((splitOnChar '.' ts).headD [])).length ≠ 2 →
      (splitOnChar ':' ((splitOnChar '.' ts).headD [])).length ≠ 3 →
      ChapterTableManager.normalize_time ts = some ts) ∧
    ChapterTableManager.normalize_time "1:30".toList = some "0:01:30.000".toList ∧
    ChapterTableManager.normalize_time "1:02:03.5".toList = some "1:02:03.500".toList := by
  refine ⟨?_, ?_, ?_, ?_, ?_, by decide, by decide⟩
  · intro a b f ha hane hb hbne hf
    rw [ChapterTableManager.normalize_time_2_frac ha hane hb hbne hf]
    rfl
  · intro a b ha hane hb hbne
    rw [ChapterTableManager.normalize_time_2_noFrac ha hane hb hbne]
    rfl
  · intro a b c f ha hane hb hbne hc hcne hf
    rw [ChapterTableManager.normalize_time_3_frac ha hane hb hbne hc hcne hf]
    rfl
  · intro a b c ha hane hb hbne hc hcne
    rw [ChapterTableManager.normalize_time_3_noFrac ha hane hb hbne hc hcne]
    rfl
  · intro ts h2 h3
    unfold ChapterTableManager.normalize_time
    dsimp only
    split
    · rename_i heq
      rw [heq] at h2
      exact absurd rfl h2
    · rename_i heq
      rw [heq] at h3
      exact absurd rfl h3
    · rfl

/-- Witness for the C6 theorem, one concrete instance per universal clause:
a 1-digit fraction is right-padded (`"1:30.5" ↦ "0:01:30.500"`), a 5-digit
fraction is truncated (`"1:02:03.12345" ↦ "1:02:03.123"`), fraction-free
2- and 3-field tokens get the default `.000`, and a 4-field token passes
through unchanged. -/
theorem c6_normalize_time_spec_witness :
    ChapterTableManager.normalize_time ['1', ':', '3', '0', '.', '5'] =
      some ['0', ':', '0', '1', ':', '3', '0', '.', '5', '0', '0'] ∧
    ChapterTableManager.normalize_time ['4', ':', '0', '5'] =
      some ['0', ':', '0', '4', ':', '0', '5', '.', '0', '0', '0'] ∧
    ChapterTableManager.normalize_time
        ['1', ':', '0', '2', ':', '0', '3', '.', '1', '2', '3', '4', '5'] =
      some ['1', ':', '0', '2', ':', '0', '3', '.', '1', '2', '3'] ∧
    ChapterTableManager.normalize_time ['2', ':', '0', '3', ':', '0', '4'] =
      some ['2', ':', '0', '3', ':', '0', '4', '.', '0', '0', '0'] ∧
    ChapterTableManager.normalize_time ['1', ':', '2', ':', '3', ':', '4'] =
      some ['1', ':', '2', ':', '3', ':', '4'] :=
  ⟨(c6_normalize_time_spec.1 ['1'] ['3', '0'] ['5']
      (ChapterTableManager.digitsOnly_iff_all.2 (by decide)) (by decide)
      (ChapterTableManager.digitsOnly_iff_all.2 (by decide)) (by decide)
      (ChapterTableManager.digitsOnly_iff_all.2 (by decide))).trans (by decide),
   (c6_normalize_time_spec.2.1 ['4'] ['0', '5']
      (ChapterTableManager.digitsOnly_iff_all.2 (by decide)) (by decide)
      (ChapterTableManager.digitsOnly_iff_all.2 (by decide)) (by decide)).trans (by decide),
   (c6_normalize_time_spec.2.2.1 ['1'] ['0', '2'] ['0', '3'] ['1', '2', '3', '4', '5']
      (ChapterTableManager.digitsOnly_iff_all.2 (by decide)) (by decide)
      (ChapterTableManager.digitsOnly_iff_all.2 (by decide)) (by decide)
      (ChapterTableManager.digitsOnly_iff_all.2 (by decide)) (by decide)
      (ChapterTableManager.digitsOnly_iff_all.2 (by decide))).trans (by decide),
   (c6_normalize_time_spec.2.2.2.1 ['2'] ['0', '3'] ['0', '4']
      (ChapterTableManager.digitsOnly_iff_all.2 (by decide)) (by decide)
      (ChapterTableManager.digitsOnly_iff_all.2 (by decide)) (by decide)
      (ChapterTableManager.digitsOnly_iff_all.2 (by decide)) (by decide)).trans (by decide),
   c6_normalize_time_spec.2.2.2.2.1 ['1', ':', '2', ':', '3', ':', '4'] (by decide) (by decide)⟩

/-! ### Scanner soundness and parser totality -/

namespace ChapterTableManager

theorem scanAux_sound (cs : List Char) : ∀ i skip st L, (st, L) ∈ scanAux cs i skip →
    i ≤ st ∧ matchTimeAt (cs.drop (st - i)) = some L := by
  induction cs with
  | nil => intro i skip st L h; cases h
  | cons c tl ih =>
    intro i skip st L h
    cases skip with
    | succ s =>
      rw [show scanAux (c :: tl) i (s + 1) = scanAux tl (i + 1) s from rfl] at h
      obtain ⟨h1, h2⟩ := ih (i + 1) s st L h
      refine ⟨by omega, ?_⟩
      rw [show (c :: tl).drop (st - i) = tl.drop (st - (i + 1)) from ?_]
      · exact h2
      · rw [show st - i = (st - (i + 1)) + 1 from by omega]
        rfl
    | zero =>
      rw [show scanAux (c :: tl) i 0 =
          (match matchTimeAt (c :: tl) with
           | some L => (i, L) :: scanAux tl (i + 1) (L - 1)
           | none => scanAux tl (i + 1) 0) from rfl] at h
      cases hm : matchTimeAt (c :: tl) with
      | some L0 =>
        rw [hm] at h
        rcases List.mem_cons.1 h with heq | h
        · obtain ⟨rfl, rfl⟩ : st = i ∧ L = L0 := by
            exact ⟨congrArg Prod.fst heq, congrArg Prod.snd heq⟩
          refine ⟨le_rfl, ?_⟩
          rw [Nat.sub_self]
          exact hm
        · obtain ⟨h1, h2⟩ := ih (i + 1) (L0 - 1) st L h
          refine ⟨by omega, ?_⟩
          rw [show (c :: tl).drop (st - i) = tl.drop (st - (i + 1)) from ?_]
          · exact h2
          · rw [show st - i = (st - (i + 1)) + 1 from by omega]
            rfl
      | none =>
        rw [hm] at h
        obtain ⟨h1, h2⟩ := ih (i + 1) 0 st L h
        refine ⟨by omega, ?_⟩
        rw [show (c :: tl).drop (st - i) = tl.drop (st - (i + 1)) from ?_]
        · exact h2
        · rw [show st - i = (st - (i + 1)) + 1 from by omega]
          rfl

theorem scanMatches_sound {line : List Char} {st L : ℕ} (h : (st, L) ∈ scanMatches line) :
    matchTimeAt (line.drop st) = some L := by
  have := (scanAux_sound line 0 0 st L h).2
  rwa [Nat.sub_zero] at this

theorem seg_token {line : List Char} {st L : ℕ} (h : (st, L) ∈ scanMatches line) :
    ∃ out, normalize_time (seg line st (st + L)) = some out ∧ TimeShapeOK out := by
  have h1 := scanMatches_sound h
  have h2 := (matchTimeAt_shape h1).1
  have h3 : seg line st (st + L) = (line.drop st).take L := by
    unfold seg
    rw [Nat.add_sub_cancel_left]
  rw [h3]
  exact normalize_token h2

theorem mem_ite_cons {α : Type} {q x : α} {tl : List α} {c : Prop} [Decidable c]
    (hq : q ∈ (if c then x :: tl else tl)) : q = x ∨ q ∈ tl := by
  split at hq
  · exact List.mem_cons.1 hq
  · exact Or.inr hq

theorem emitSingle_sound (line : List Char) : ∀ ms : List (ℕ × ℕ),
    (∀ p ∈ ms, p ∈ scanMatches line) →
    ∃ out, emitSingle line ms = some out ∧ ∀ q ∈ out, TimeShapeOK q.1 := by
  intro ms
  induction ms with
  | nil => exact fun _ => ⟨[], rfl, by intro q hq; cases hq⟩
  | cons p rest ih =>
    intro hmem
    obtain ⟨st, L⟩ := p
    obtain ⟨nt0, hnt, hshape⟩ := seg_token (hmem _ (List.mem_cons_self _ _))
    obtain ⟨tl, htl, htlshape⟩ := ih (fun q hq => hmem q (List.mem_cons_of_mem _ hq))
    simp only [emitSingle, hnt, htl, Option.bind_eq_bind, Option.some_bind]
    refine ⟨_, rfl, ?_⟩
    intro q hq
    rcases mem_ite_cons hq with rfl | hq
    · exact hshape
    · exact htlshape q hq

theorem emitEntries_sound (line : List Char) : ∀ (ms : List (ℕ × ℕ)) (prevEnd : ℕ),
    (∀ p ∈ ms, p ∈ scanMatches line) →
    ∃ out, emitEntries line prevEnd ms = some out ∧ ∀ q ∈ out, TimeShapeOK q.1 := by
  intro ms
  induction ms with
  | nil => exact fun _ _ => ⟨[], rfl, by intro q hq; cases hq⟩
  | cons p rest ih =>
    intro prevEnd hmem
    obtain ⟨st, L⟩ := p
    obtain ⟨nt0, hnt, hshape⟩ := seg_token (hmem _ (List.mem_cons_self _ _))
    obtain ⟨tl, htl, htlshape⟩ := ih (st + L) (fun q hq => hmem q (List.mem_cons_of_mem _ hq))
    simp only [emitEntries, hnt, htl, Option.bind_eq_bind, Option.some_bind]
    refine ⟨_, rfl, ?_⟩
    intro q hq
    rcases mem_ite_cons hq with rfl | hq
    · exact hshape
    · exact htlshape q hq

theorem branchB_sound : ∀ ls : List (List Char),
    ∃ out, branchB ls = some out ∧ ∀ q ∈ out, TimeShapeOK q.1 := by
  intro ls
  induction ls with
  | nil => exact ⟨[], rfl, by intro q hq; cases hq⟩
  | cons l rest ih =>
    obtain ⟨cur, hcur, hcurshape⟩ := emitEntries_sound (pyStrip l) (scanMatches (pyStrip l)) 0
      (fun _ hq => hq)
    obtain ⟨tl, htl, htlshape⟩ := ih
    refine ⟨cur ++ tl, ?_, ?_⟩
    · simp only [branchB, hcur, htl, Option.bind_eq_bind, Option.some_bind]
    · intro q hq
      rcases List.mem_append.1 hq with h | h
      · exact hcurshape q h
      · exact htlshape q h

/-- Every produced entry list exists (`none` never happens) and every time
string in it is in canonical shape. -/
theorem parse_sound (text : String) :
    ∃ l, parse_youtube_chapters text = some l ∧ ∀ p ∈ l, TimeShapeOK p.1.toList := by
  unfold parse_youtube_chapters
  dsimp only
  have hmap : ∀ res : Option (List (List Char × List Char)),
      (∃ out, res = some out ∧ ∀ q ∈ out, TimeShapeOK q.1) →
      ∃ l, res.map (List.map fun p => (p.1.asString, p.2.asString)) = some l ∧
        ∀ p ∈ l, TimeShapeOK p.1.toList := by
    rintro res ⟨out, rfl, hshape⟩
    refine ⟨_, rfl, ?_⟩
    intro p hp
    obtain ⟨q, hq, rfl⟩ := List.mem_map.1 hp
    exact hshape q hq
  rcases hl : splitOnChar '\n' (pyStrip text.toList) with _ | ⟨l0, _ | ⟨l1, ls⟩⟩
  · exact hmap _ (branchB_sound [])
  · dsimp only
    by_cases h0 : l0 ≠ []
    · rw [if_pos h0]
      by_cases hn : 1 < (scanMatches l0).length
      · rw [if_pos hn]
        exact hmap _ (emitSingle_sound l0 (scanMatches l0) (fun _ hq => hq))
      · rw [if_neg hn]
        exact hmap _ (branchB_sound _)
    · rw [if_neg h0]
      exact hmap _ (branchB_sound _)
  · exact hmap _ (branchB_sound _)

end ChapterTableManager

/-- C7: a time token is `\d{1,2}:\d{2}`, optionally followed by `:\d{2}`,
optionally followed by a dot and *exactly three* digits — not 1–3 digits as
claimed: `"1:30.5"` scans to the bare token `"1:30"`, while `"1:30.500"`
keeps its fraction. -/
theorem c7_token_shape :
    (∀ (cs : List Char) (L : ℕ), ChapterTableManager.matchTimeAt cs = some L →
      ChapterTableManager.TokenShape (cs.take L)) ∧
    ChapterTableManager.tokensOf "1:30.5".toList = ["1:30".toList] ∧
    ChapterTableManager.tokensOf "1:30.500".toList = ["1:30.500".toList] :=
  ⟨fun _ _ h => (ChapterTableManager.matchTimeAt_shape h).1, by decide, by decide⟩

/-- Witness for the universal part of the C7 theorem, at the token starting
`"12:34:56.789..."`. -/
theorem c7_token_shape_witness :
    ChapterTableManager.TokenShape ("12:34:56.789xyz".toList.take 12) :=
  c7_token_shape.1 "12:34:56.789xyz".toList 12 (by decide)

/-- C8: the chapter-list parser is total — it produces a list (never an
exception, modelled by `none`) for every input string, and whitespace-only
input produces the empty list. -/
theorem c8_parser_never_raises :
    ∀ text : String, (ChapterTableManager.parse_youtube_chapters text).isSome = true ∧
      ((∀ c ∈ text.toList, c.isWhitespace = true) →
        ChapterTableManager.parse_youtube_chapters text = some []) := by
  intro text
  constructor
  · obtain ⟨l, hl, _⟩ := ChapterTableManager.parse_sound text
    rw [hl]; rfl
  · intro hws
    unfold ChapterTableManager.parse_youtube_chapters
    rw [pyStrip_all_ws hws]
    rfl

/-- Witness for C8: a whitespace-only input maps to the empty list, and a
normal input produces a result. -/
theorem c8_parser_never_raises_witness :
    ChapterTableManager.parse_youtube_chapters " \t " = some [] ∧
      (ChapterTableManager.parse_youtube_chapters "x 1:30 y").isSome = true :=
  ⟨(c8_parser_never_raises " \t ").2 (by decide), (c8_parser_never_raises "x 1:30 y").1⟩

/-- C10: every time string in a parse result is fully normalized
(`digits:2-digits:2-digits.3-digits`): the scanner only produces 2- or
3-field tokens, so `_normalize_time`'s pass-through branch is unreachable
from the parser. -/
theorem c10_output_times_normalized :
    ∀ (text : String) (l : List (String × String)) (p : String × String),
      ChapterTableManager.parse_youtube_chapters text = some l → p ∈ l →
      ChapterTableManager.TimeShapeOK p.1.toList := by
  intro text l p hl hp
  obtain ⟨l', hl', hshape⟩ := ChapterTableManager.parse_sound text
  rw [hl'] at hl
  obtain rfl : l' = l := Option.some.inj hl
  exact hshape p hp

/-- Witness for C10 at a concrete parse. -/
theorem c10_output_times_normalized_witness :
    ChapterTableManager.TimeShapeOK "0:01:30.000".toList :=
  c10_output_times_normalized "1:30 Hello" [("0:01:30.000", "Hello")]
    ("0:01:30.000", "Hello") (by decide) (List.mem_singleton.2 rfl)

/-! ### Bounds of the canonical time-string parser -/

namespace TimePosition

theorem parseFrac_bounds : ∀ (cs : List Char) (h m s : ℕ) (out : ℕ × ℕ × ℕ × ℕ),
    parseFrac h m s cs = some out →
    out.1 = h ∧ out.2.1 = m ∧ out.2.2.1 = s ∧ out.2.2.2 ≤ 999 := by
  intro cs h m s out hp
  unfold parseFrac at hp
  split at hp
  · obtain rfl := Option.some.inj hp
    refine ⟨rfl, rfl, rfl, ?_⟩
    show (0 : ℕ) ≤ 999
    omega
  · obtain rfl := Option.some.inj hp
    refine ⟨rfl, rfl, rfl, ?_⟩
    show (0 : ℕ) ≤ 999
    omega
  · rename_i ds
    dsimp only at hp
    generalize hcore : (if ds.getLast? = some '\n' then ds.dropLast else ds) = core at hp
    split at hp
    · rename_i hcond
      obtain rfl := Option.some.inj hp
      refine ⟨rfl, rfl, rfl, ?_⟩
      have h1 := digitsVal_lt hcond.2.2
      have h2 : (10 : ℕ) ^ core.length ≤ 10 ^ 3 :=
        Nat.pow_le_pow_right (by omega) hcond.2.1
      show digitsVal core ≤ 999
      omega
    · cases hp
  · cases hp

theorem parseMSF_bounds : ∀ (cs : List Char) (h : ℕ) (out : ℕ × ℕ × ℕ × ℕ),
    parseMSF h cs = some out →
    out.1 = h ∧ out.2.1 ≤ 99 ∧ out.2.2.1 ≤ 99 ∧ out.2.2.2 ≤ 999 := by
  intro cs h out hp
  unfold parseMSF at hp
  split at hp
  · rename_i a b c d rest
    split at hp
    · rename_i hcond
      simp only [Bool.and_eq_true] at hcond
      obtain ⟨⟨⟨ha, hb⟩, hc⟩, hd⟩ := hcond
      obtain ⟨h1, h2, h3, h4⟩ := parseFrac_bounds _ _ _ _ _ hp
      have := dval_le_9 ha
      have := dval_le_9 hb
      have := dval_le_9 hc
      have := dval_le_9 hd
      exact ⟨h1, by omega, by omega, h4⟩
    · cases hp
  · cases hp

theorem parseHMSF_bounds : ∀ (cs : List Char) (out : ℕ × ℕ × ℕ × ℕ),
    parseHMSF cs = some out →
    out.1 ≤ 99 ∧ out.2.1 ≤ 99 ∧ out.2.2.1 ≤ 99 ∧ out.2.2.2 ≤ 999 := by
  intro cs out hp
  unfold parseHMSF at hp
  split at hp
  · rename_i c1 c2 r2
    split at hp
    · rename_i hc1
      split at hp
      · rename_i hc2
        split at hp
        · rename_i r heq
          obtain ⟨h1, h2, h3, h4⟩ := parseMSF_bounds _ _ _ hp
          have := dval_le_9 hc1
          have := dval_le_9 hc2
          exact ⟨by omega, h2, h3, h4⟩
        · cases hp
      · split at hp
        · obtain ⟨h1, h2, h3, h4⟩ := parseMSF_bounds _ _ _ hp
          have := dval_le_9 (by assumption : c1.isDigit = true)
          exact ⟨by omega, h2, h3, h4⟩
        · cases hp
    · cases hp
  · cases hp

end TimePosition

/-- C9 (counterexample): `from_string` performs no range validation beyond
the regex: `"0:99:00"` parses successfully with minutes `99`, violating the
claimed invariant `minutes ∈ [0, 59]`. -/
theorem c9_minutes_counterexample :
    (TimePosition.from_string "0:99:00").map TimePosition.minutes = some 99 ∧
      ¬((99 : ℤ) ≤ 59) := by
  have hp : TimePosition.parseHMSF (String.toList "0:99:00") = some (0, 99, 0, 0) := by decide
  have h2 : TimePosition.from_string "0:99:00" =
      some ⟨((0 : ℕ) : ℤ), ((99 : ℕ) : ℤ), ((0 : ℕ) : ℚ) + ((0 : ℕ) : ℚ) / 1000⟩ := by
    unfold TimePosition.from_string
    rw [hp]
    rfl
  constructor
  · rw [h2]
    rfl
  · decide

/-- C9 (amended): `from_milliseconds` on a non-negative count does satisfy
the data-model ranges (hours `≥ 0`, minutes in `[0,59]`, seconds in
`[0,60)`); a successful `from_string` only guarantees the weaker ranges its
regex enforces: hours in `[0,99]`, minutes in `[0,99]`, seconds in
`[0,100)`. -/
theorem c9_constructor_ranges :
    (∀ ms : ℤ, 0 ≤ ms →
      0 ≤ (TimePosition.from_milliseconds ms).hours ∧
      0 ≤ (TimePosition.from_milliseconds ms).minutes ∧
      (TimePosition.from_milliseconds ms).minutes ≤ 59 ∧
      0 ≤ (TimePosition.from_milliseconds ms).seconds ∧
      (TimePosition.from_milliseconds ms).seconds < 60) ∧
    (∀ (str : String) (t : TimePosition), TimePosition.from_string str = some t →
      0 ≤ t.hours ∧ t.hours ≤ 99 ∧ 0 ≤ t.minutes ∧ t.minutes ≤ 99 ∧
      0 ≤ t.seconds ∧ t.seconds < 100) := by
  constructor
  · intro ms hms
    have hts : (0 : ℚ) ≤ (ms : ℚ) / 1000 := by positivity
    set ts : ℚ := (ms : ℚ) / 1000 with hts_def
    set h : ℤ := ⌊ts / 3600⌋ with hh_def
    set rem : ℚ := ts - 3600 * h with hrem_def
    set mi : ℤ := ⌊rem / 60⌋ with hmi_def
    have hfm : TimePosition.from_milliseconds ms = ⟨h, mi, rem - 60 * mi⟩ := rfl
    rw [hfm]
    have hfl1 : (h : ℚ) ≤ ts / 3600 := Int.floor_le _
    have hfl2 : ts / 3600 < h + 1 := Int.lt_floor_add_one _
    have hrem0 : 0 ≤ rem := by
      rw [hrem_def]
      nlinarith
    have hrem1 : rem < 3600 := by
      rw [hrem_def]
      nlinarith
    have hfl3 : (mi : ℚ) ≤ rem / 60 := Int.floor_le _
    have hfl4 : rem / 60 < mi + 1 := Int.lt_floor_add_one _
    refine ⟨?_, ?_, ?_, ?_, ?_⟩
    · show (0 : ℤ) ≤ h
      rw [hh_def]
      exact Int.floor_nonneg.2 (by positivity)
    · show (0 : ℤ) ≤ mi
      rw [hmi_def]
      exact Int.floor_nonneg.2 (by positivity)
    · show mi ≤ 59
      have h60 : mi < 60 := by
        rw [hmi_def]
        exact Int.floor_lt.2 (by push_cast; linarith)
      omega
    · show (0 : ℚ) ≤ rem - 60 * mi
      nlinarith
    · show rem - 60 * (mi : ℚ) < 60
      nlinarith
  · intro str t hp
    unfold TimePosition.from_string at hp
    obtain ⟨⟨h', m', s', ms'⟩, hx, rfl⟩ := Option.map_eq_some'.1 hp
    obtain ⟨b1, b2, b3, b4⟩ := TimePosition.parseHMSF_bounds _ _ hx
    have b1' : h' ≤ 99 := b1
    have b2' : m' ≤ 99 := b2
    have b3' : s' ≤ 99 := b3
    have b4' : ms' ≤ 999 := b4
    refine ⟨?_, ?_, ?_, ?_, ?_, ?_⟩
    · show (0 : ℤ) ≤ (h' : ℤ)
      positivity
    · show (h' : ℤ) ≤ 99
      exact_mod_cast b1'
    · show (0 : ℤ) ≤ (m' : ℤ)
      positivity
    · show (m' : ℤ) ≤ 99
      exact_mod_cast b2'
    · show (0 : ℚ) ≤ (s' : ℚ) + (ms' : ℚ) / 1000
      positivity
    · show (s' : ℚ) + (ms' : ℚ) / 1000 < 100
      have hc1 : (s' : ℚ) ≤ 99 := by exact_mod_cast b3'
      have hc2 : (ms' : ℚ) ≤ 999 := by exact_mod_cast b4'
      nlinarith

/-- Witness for C9 (amended), at `ms = 3661001` and the parse of
`"1:02:03"`. -/
theorem c9_constructor_ranges_witness :
    ((TimePosition.from_milliseconds 3661001).minutes ≤ 59 ∧
      (TimePosition.from_milliseconds 3661001).seconds < 60) ∧
    (0 ≤ (TimePosition.mk ((1 : ℕ) : ℤ) ((2 : ℕ) : ℤ)
        (((3 : ℕ) : ℚ) + ((0 : ℕ) : ℚ) / 1000)).minutes ∧
      (TimePosition.mk ((1 : ℕ) : ℤ) ((2 : ℕ) : ℤ)
        (((3 : ℕ) : ℚ) + ((0 : ℕ) : ℚ) / 1000)).seconds < 100) := by
  have hp : TimePosition.parseHMSF (String.toList "1:02:03") = some (1, 2, 3, 0) := by decide
  have hfs : TimePosition.from_string "1:02:03" =
      some ⟨((1 : ℕ) : ℤ), ((2 : ℕ) : ℤ), ((3 : ℕ) : ℚ) + ((0 : ℕ) : ℚ) / 1000⟩ := by
    unfold TimePosition.from_string
    rw [hp]
    rfl
  have h1 := c9_constructor_ranges.1 3661001 (by norm_num)
  have h2 := c9_constructor_ranges.2 "1:02:03" _ hfs
  exact ⟨⟨h1.2.2.1, h1.2.2.2.2⟩, ⟨h2.2.2.1, h2.2.2.2.2.2⟩⟩

/-! ### Parsing rendered time strings (round trips) -/

namespace TimePosition

theorem getLast_ne_newline {f : List Char} (hfd : f.all Char.isDigit = true) :
    f.getLast? ≠ some '\n' := by
  intro h
  have hmem : '\n' ∈ f := by
    rcases List.getLast?_eq_some_iff.1 h with ⟨l', hl'⟩
    rw [hl']
    exact List.mem_append.2 (Or.inr (List.mem_singleton.2 rfl))
  rw [List.all_eq_true] at hfd
  exact absurd (hfd _ hmem) (by decide)

theorem parseFrac_digits (h m s : ℕ) {f : List Char} (hne : f ≠ []) (hlen : f.length ≤ 3)
    (hfd : f.all Char.isDigit = true) :
    parseFrac h m s ('.' :: f) = some (h, m, s, digitsVal f) := by
  have hcore : (if f.getLast? = some '\n' then f.dropLast else f) = f :=
    if_neg (getLast_ne_newline hfd)
  show (let core := if f.getLast? = some '\n' then f.dropLast else f
    if core ≠ [] ∧ core.length ≤ 3 ∧ core.all Char.isDigit then
      some (h, m, s, digitsVal core)
    else none) = some (h, m, s, digitsVal f)
  rw [hcore]
  rw [if_pos ⟨hne, hlen, hfd⟩]

theorem parseMSF_render (h m s : ℕ) {f : List Char} (hm : m ≤ 99) (hs : s ≤ 99)
    (hne : f ≠ []) (hlen : f.length ≤ 3) (hfd : f.all Char.isDigit = true) :
    parseMSF h (twoDigits m ++ ':' :: (twoDigits s ++ '.' :: f)) =
      some (h, m, s, digitsVal f) := by
  obtain ⟨ma, mb, hmeq, hma, hmb, hmv⟩ := twoDigits_spec hm
  obtain ⟨sa, sb, hseq, hsa, hsb, hsv⟩ := twoDigits_spec hs
  rw [hmeq, hseq]
  show (if ma.isDigit && mb.isDigit && sa.isDigit && sb.isDigit then
      parseFrac h (10 * dval ma + dval mb) (10 * dval sa + dval sb) ('.' :: f)
    else none) = _
  rw [if_pos (by simp [hma, hmb, hsa, hsb]), hmv, hsv,
    parseFrac_digits h m s hne hlen hfd]

theorem parseHMSF_render (h m s : ℕ) {f : List Char} (hh : h ≤ 99) (hm : m ≤ 99) (hs : s ≤ 99)
    (hne : f ≠ []) (hlen : f.length ≤ 3) (hfd : f.all Char.isDigit = true) :
    parseHMSF (natDigits h ++ ':' :: (twoDigits m ++ ':' :: (twoDigits s ++ '.' :: f))) =
      some (h, m, s, digitsVal f) := by
  by_cases h10 : h < 10
  · rw [natDigits_small h10]
    show (if (Nat.digitChar h).isDigit then
        if ':'.isDigit then _ else if ':' = ':' then
          parseMSF (dval (Nat.digitChar h)) (twoDigits m ++ ':' :: (twoDigits s ++ '.' :: f))
        else none
      else none) = _
    rw [if_pos (digitChar_isDigit h10), if_neg (by decide : ¬ ':'.isDigit = true), if_pos rfl,
      dval_digitChar h10, parseMSF_render h m s hm hs hne hlen hfd]
  · rw [natDigits_two (by omega) (by omega)]
    have hd1 : (Nat.digitChar (h / 10)).isDigit = true := digitChar_isDigit (by omega)
    have hd2 : (Nat.digitChar (h % 10)).isDigit = true :=
      digitChar_isDigit (Nat.mod_lt h (by omega))
    show (if (Nat.digitChar (h / 10)).isDigit then
        if (Nat.digitChar (h % 10)).isDigit then
          parseMSF (10 * dval (Nat.digitChar (h / 10)) + dval (Nat.digitChar (h % 10)))
            (twoDigits m ++ ':' :: (twoDigits s ++ '.' :: f))
        else _
      else none) = _
    rw [if_pos hd1, if_pos hd2, dval_digitChar (by omega), dval_digitChar (Nat.mod_lt h (by omega)),
      show 10 * (h / 10) + h % 10 = h from by omega,
      parseMSF_render h m s hm hs hne hlen hfd]

end TimePosition

/-- C5 (amended): `from_string` accepts `H:MM:SS` with an optional fraction
of 1–3 digits, but the fraction is read as an integer *millisecond count*
(effectively left-padded with zeros), not right-padded: parsing a rendered
`H:MM:SS.f` string yields seconds `s + int(f) / 1000`, and in particular
`"1:02:03.5"` yields seconds `3.005`, not `3.5`. -/
theorem c5_fraction_semantics :
    (∀ (h m s : ℕ) (f : List Char), h ≤ 99 → m ≤ 99 → s ≤ 99 →
      f ≠ [] → f.length ≤ 3 → f.all Char.isDigit = true →
      TimePosition.from_string
          ((natDigits h ++ ':' :: (twoDigits m ++ ':' :: (twoDigits s ++ '.' :: f))).asString) =
        some ⟨(h : ℤ), (m : ℤ), (s : ℚ) + (digitsVal f : ℚ) / 1000⟩) ∧
    TimePosition.from_string "1:02:03.5" = some ⟨1, 2, (3 : ℚ) + (5 : ℚ) / 1000⟩ := by
  constructor
  · intro h m s f hh hm hs hne hlen hfd
    unfold TimePosition.from_string
    rw [show ((natDigits h ++ ':' :: (twoDigits m ++ ':' :: (twoDigits s ++ '.' :: f))).asString).toList
        = natDigits h ++ ':' :: (twoDigits m ++ ':' :: (twoDigits s ++ '.' :: f)) from rfl]
    rw [TimePosition.parseHMSF_render h m s hh hm hs hne hlen hfd]
    rfl
  · have hp : TimePosition.parseHMSF (String.toList "1:02:03.5") = some (1, 2, 3, 5) := by decide
    unfold TimePosition.from_string
    rw [hp, Option.map_some']
    simp only [Option.some.injEq, TimePosition.mk.injEq]
    norm_num

/-- Witness for C5 (amended): the general clause at `1:02:03.45`. -/
theorem c5_fraction_semantics_witness :
    TimePosition.from_string
        ((natDigits 1 ++ ':' :: (twoDigits 2 ++ ':' :: (twoDigits 3 ++ '.' :: ['4', '5']))).asString) =
      some ⟨((1 : ℕ) : ℤ), ((2 : ℕ) : ℤ), ((3 : ℕ) : ℚ) + ((digitsVal ['4', '5'] : ℕ) : ℚ) / 1000⟩ :=
  c5_fraction_semantics.1 1 2 3 ['4', '5'] (by omega) (by omega) (by omega)
    (by decide) (by decide) (by decide)

/-- C4 (counterexample): the string round trip is not millisecond-faithful:
`from_milliseconds 3500` has seconds `3.5`, prints as `"0:00:03.50"`, and
parses back with seconds `3.05` (the two rendered fraction digits are read as
a count of milliseconds), so the round trip loses the value. -/
theorem c4_round_trip_counterexample :
    (TimePosition.from_milliseconds 3500).to_string true = "0:00:03.50" ∧
    TimePosition.from_string "0:00:03.50" =
      some ⟨0, 0, (3 : ℚ) + (50 : ℚ) / 1000⟩ ∧
    ¬((3 : ℚ) + (50 : ℚ) / 1000 = (TimePosition.from_milliseconds 3500).seconds) := by
  have hstruct : TimePosition.from_milliseconds 3500 = ⟨0, 0, (7 : ℚ) / 2⟩ := by
    unfold TimePosition.from_milliseconds
    dsimp only
    rw [show ((3500 : ℤ) : ℚ) / 1000 = 7 / 2 from by norm_num]
    rw [show ⌊(7 : ℚ) / 2 / 3600⌋ = 0 from by rw [Int.floor_eq_iff]; norm_num]
    rw [show (7 : ℚ) / 2 - 3600 * ((0 : ℤ) : ℚ) = 7 / 2 from by norm_num]
    rw [show ⌊(7 : ℚ) / 2 / 60⌋ = 0 from by rw [Int.floor_eq_iff]; norm_num]
    rw [show (7 : ℚ) / 2 - 60 * ((0 : ℤ) : ℚ) = 7 / 2 from by norm_num]
  refine ⟨?_, ?_, ?_⟩
  · rw [hstruct]
    show (intDigits 0 ++ ':' :: pad2 0 ++ ':' :: fmt52 ((7 : ℚ) / 2)).asString = _
    have hfmt : fmt52 ((7 : ℚ) / 2) = ['0', '3', '.', '5', '0'] := by
      unfold fmt52
      have hc : rndHalfEvenInt (100 * ((7 : ℚ) / 2)) = 350 := by
        rw [show (100 : ℚ) * ((7 : ℚ) / 2) = ((350 : ℤ) : ℚ) from by norm_num]
        exact rndHalfEvenInt_int 350
      rw [hc]
      decide
    rw [hfmt]
    decide
  · have hp : TimePosition.parseHMSF (String.toList "0:00:03.50") = some (0, 0, 3, 50) := by
      decide
    unfold TimePosition.from_string
    rw [hp, Option.map_some']
    simp only [Option.some.injEq, TimePosition.mk.injEq]
    norm_num
  · rw [hstruct]
    norm_num

/-- C4 (amended): the round trip does hold for whole-second values below 100
hours: for `m ≥ 0` divisible by 1000 with `m < 360000000`,
`from_string((from_milliseconds m).to_string(true))` succeeds and returns
exactly `from_milliseconds m`. -/
theorem c4_round_trip_integral :
    ∀ m : ℤ, 0 ≤ m → 1000 ∣ m → m < 360000000 →
      TimePosition.from_string ((TimePosition.from_milliseconds m).to_string true) =
        some (TimePosition.from_milliseconds m) := by
  rintro m h0 ⟨k, rfl⟩ hub
  have hk0 : 0 ≤ k := by omega
  have hkub : k < 360000 := by omega
  set kH := k / 3600 with hkH_def
  set r1 := k % 3600 with hr1_def
  set mI := r1 / 60 with hmI_def
  set r2 := r1 % 60 with hr2_def
  have e1 : 3600 * kH + r1 = k := Int.ediv_add_emod k 3600
  have hr1b : 0 ≤ r1 ∧ r1 < 3600 :=
    ⟨Int.emod_nonneg k (by norm_num), Int.emod_lt_of_pos k (by norm_num)⟩
  have e2 : 60 * mI + r2 = r1 := Int.ediv_add_emod r1 60
  have hr2b : 0 ≤ r2 ∧ r2 < 60 :=
    ⟨Int.emod_nonneg r1 (by norm_num), Int.emod_lt_of_pos r1 (by norm_num)⟩
  have hkHb : 0 ≤ kH ∧ kH ≤ 99 := by omega
  have hmIb : 0 ≤ mI ∧ mI ≤ 59 := by omega
  have e1q : (k : ℚ) = 3600 * (kH : ℚ) + (r1 : ℚ) := by exact_mod_cast e1.symm
  have e2q : (r1 : ℚ) = 60 * (mI : ℚ) + (r2 : ℚ) := by exact_mod_cast e2.symm
  have hr1q0 : (0 : ℚ) ≤ (r1 : ℚ) := by exact_mod_cast hr1b.1
  have hr1q1 : (r1 : ℚ) < 3600 := by exact_mod_cast hr1b.2
  have hr2q0 : (0 : ℚ) ≤ (r2 : ℚ) := by exact_mod_cast hr2b.1
  have hr2q1 : (r2 : ℚ) < 60 := by exact_mod_cast hr2b.2
  have hts : ((1000 * k : ℤ) : ℚ) / 1000 = (k : ℚ) := by push_cast; ring
  have hfl1 : ⌊(k : ℚ) / 3600⌋ = kH := by
    rw [Int.floor_eq_iff]
    constructor
    · rw [le_div_iff₀ (by norm_num : (0 : ℚ) < 3600)]
      linarith
    · rw [div_lt_iff₀ (by norm_num : (0 : ℚ) < 3600)]
      linarith
  have hfl2 : ⌊(r1 : ℚ) / 60⌋ = mI := by
    rw [Int.floor_eq_iff]
    constructor
    · rw [le_div_iff₀ (by norm_num : (0 : ℚ) < 60)]
      linarith
    · rw [div_lt_iff₀ (by norm_num : (0 : ℚ) < 60)]
      linarith
  have hfm : TimePosition.from_milliseconds (1000 * k) = ⟨kH, mI, ((r2 : ℤ) : ℚ)⟩ := by
    unfold TimePosition.from_milliseconds
    dsimp only
    rw [hts, hfl1]
    rw [show (k : ℚ) - 3600 * (kH : ℚ) = (r1 : ℚ) from by rw [e1q]; ring]
    rw [hfl2]
    rw [show (r1 : ℚ) - 60 * (mI : ℚ) = (r2 : ℚ) from by rw [e2q]; ring]
  rw [hfm]
  have hto : (TimePosition.mk kH mI ((r2 : ℤ) : ℚ)).to_string true =
      (natDigits kH.toNat ++ ':' ::
        (twoDigits mI.toNat ++ ':' :: (twoDigits r2.toNat ++ '.' :: ['0', '0']))).asString := by
    show (intDigits kH ++ ':' :: pad2 mI ++ ':' :: fmt52 ((r2 : ℤ) : ℚ)).asString = _
    rw [fmt52_int hr2b.1,
      show intDigits kH = natDigits kH.toNat from if_pos hkHb.1,
      show pad2 mI = twoDigits mI.toNat from if_pos hmIb.1]
    congr 1
    simp [List.append_assoc]
  rw [hto]
  unfold TimePosition.from_string
  rw [show ((natDigits kH.toNat ++ ':' ::
      (twoDigits mI.toNat ++ ':' :: (twoDigits r2.toNat ++ '.' :: ['0', '0']))).asString).toList =
      natDigits kH.toNat ++ ':' ::
        (twoDigits mI.toNat ++ ':' :: (twoDigits r2.toNat ++ '.' :: ['0', '0'])) from rfl]
  rw [TimePosition.parseHMSF_render kH.toNat mI.toNat r2.toNat (by omega) (by omega) (by omega)
    (by decide) (by decide) (by decide), Option.map_some']
  simp only [Option.some.injEq, TimePosition.mk.injEq]
  refine ⟨?_, ?_, ?_⟩
  · exact Int.toNat_of_nonneg hkHb.1
  · exact Int.toNat_of_nonneg hmIb.1
  · rw [show digitsVal ['0', '0'] = 0 from by decide]
    have hti : ((r2.toNat : ℕ) : ℚ) = ((r2 : ℤ) : ℚ) := by
      exact_mod_cast Int.toNat_of_nonneg hr2b.1
    rw [hti]
    norm_num

/-- Witness for C4 (amended) at `m = 90061000` (25 h 1 min 1 s). -/
theorem c4_round_trip_integral_witness :
    TimePosition.from_string ((TimePosition.from_milliseconds 90061000).to_string true) =
      some (TimePosition.from_milliseconds 90061000) :=
  c4_round_trip_integral 90061000 (by norm_num) ⟨90061, by norm_num⟩ (by norm_num)

/-! ### Shape lemmas for `to_string` output -/

theorem rndHalfEvenInt_nonneg {q : ℚ} (h : 0 ≤ q) : 0 ≤ rndHalfEvenInt q := by
  have h0 : 0 ≤ ⌊q⌋ := Int.floor_nonneg.2 h
  unfold rndHalfEvenInt
  dsimp only
  split_ifs <;> omega

theorem rndHalfEvenInt_le_floor_add_one (q : ℚ) : rndHalfEvenInt q ≤ ⌊q⌋ + 1 := by
  unfold rndHalfEvenInt
  dsimp only
  split_ifs <;> omega

theorem digitsVal_twoDigits {n : ℕ} (h : n ≤ 99) : digitsVal (twoDigits n) = n := by
  obtain ⟨a, b, heq, _, _, hv⟩ := twoDigits_spec h
  rw [heq]
  show 10 * (10 * 0 + dval a) + dval b = n
  omega

/-- C3 (amended): for in-range fields (`hours ≥ 0`, `minutes ∈ [0,99]`,
`seconds ∈ [0,60)`), `to_string(true)` yields `H:MM:SS.cc` — hours unpadded,
minutes zero-padded to 2 digits, and the seconds value rounded half-even to
exactly TWO fractional digits (not three); `to_string(false)` yields
`H:MM:SS` with seconds truncated to an integer, zero-padded to 2 digits, and
no fractional part. -/
theorem c3_format_amended :
    ∀ t : TimePosition, 0 ≤ t.hours → 0 ≤ t.minutes → t.minutes ≤ 99 →
      0 ≤ t.seconds → t.seconds < 60 → FormatTrueOK t ∧ FormatFalseOK t := by
  rintro ⟨h, m, s⟩ hh0 hm0 hm99 hs0 hs60
  dsimp only at hh0 hm0 hm99 hs0 hs60
  have hmN : m.toNat ≤ 99 := by omega
  have hMdig := twoDigits_spec hmN
  obtain ⟨ma, mb, hmeq, hma, hmb, _⟩ := hMdig
  have hc0 : 0 ≤ rndHalfEvenInt (100 * s) := rndHalfEvenInt_nonneg (by positivity)
  have hcub : rndHalfEvenInt (100 * s) ≤ 6000 := by
    have h1 := rndHalfEvenInt_le_floor_add_one (100 * s)
    have h2 : ⌊(100 : ℚ) * s⌋ ≤ 5999 := by
      have : (100 : ℚ) * s < 6000 := by linarith
      have := Int.floor_lt.2 (by push_cast; linarith : (100 : ℚ) * s < ((6000 : ℤ) : ℚ))
      omega
    omega
  set c : ℤ := rndHalfEvenInt (100 * s) with hc_def
  have hS99 : c.toNat / 100 ≤ 99 := by omega
  have hF99 : c.toNat % 100 ≤ 99 := by omega
  have hfmt : fmt52 s = twoDigits (c.toNat / 100) ++ '.' :: twoDigits (c.toNat % 100) := by
    unfold fmt52
    rw [← hc_def, if_pos hc0]
  have hSdig := twoDigits_spec hS99
  obtain ⟨sa, sb, hseq, hsa, hsb, _⟩ := hSdig
  have hFdig := twoDigits_spec hF99
  obtain ⟨fa, fb, hfeq, hfa, hfb, _⟩ := hFdig
  have hHfree : ∀ x ∈ natDigits h.toNat, x ≠ ':' := by
    intro x hx
    have := natDigits_all_digits h.toNat
    rw [List.all_eq_true] at this
    exact isDigit_ne_colon (this x hx)
  have hMfree : ∀ x ∈ twoDigits m.toNat, x ≠ ':' := by
    intro x hx
    rw [hmeq] at hx
    rcases List.mem_cons.1 hx with rfl | hx
    · exact isDigit_ne_colon hma
    rcases List.mem_cons.1 hx with rfl | hx
    · exact isDigit_ne_colon hmb
    · cases hx
  constructor
  · refine ⟨twoDigits m.toNat, twoDigits (c.toNat / 100), twoDigits (c.toNat % 100), ?_,
      ?_, ?_, ?_, ?_, ?_, ?_, ?_, ?_, ?_⟩
    · show splitOnChar ':'
        (intDigits h ++ ':' :: pad2 m ++ ':' :: fmt52 s) = _
      rw [show intDigits h = natDigits h.toNat from if_pos hh0,
        show pad2 m = twoDigits m.toNat from if_pos hm0, hfmt]
      rw [show natDigits h.toNat ++ ':' :: twoDigits m.toNat ++
            ':' :: (twoDigits (c.toNat / 100) ++ '.' :: twoDigits (c.toNat % 100)) =
          natDigits h.toNat ++ ':' :: (twoDigits m.toNat ++
            ':' :: (twoDigits (c.toNat / 100) ++ '.' :: twoDigits (c.toNat % 100))) from by simp]
      rw [splitOnChar_append_sep hHfree, splitOnChar_append_sep hMfree]
      rw [splitOnChar_sepFree ?_]
      intro x hx
      rcases List.mem_append.1 hx with hx | hx
      · rw [hseq] at hx
        rcases List.mem_cons.1 hx with rfl | hx
        · exact isDigit_ne_colon hsa
        rcases List.mem_cons.1 hx with rfl | hx
        · exact isDigit_ne_colon hsb
        · cases hx
      · rcases List.mem_cons.1 hx with rfl | hx
        · decide
        rw [hfeq] at hx
        rcases List.mem_cons.1 hx with rfl | hx
        · exact isDigit_ne_colon hfa
        rcases List.mem_cons.1 hx with rfl | hx
        · exact isDigit_ne_colon hfb
        · cases hx
    · rw [hmeq]; rfl
    · rw [hmeq]; simp [hma, hmb]
    · rw [digitsVal_twoDigits hmN]
      show ((m.toNat : ℕ) : ℤ) = m
      omega
    · rw [hseq]; rfl
    · rw [hseq]; simp [hsa, hsb]
    · rw [hfeq]; rfl
    · rw [hfeq]; simp [hfa, hfb]
    · rw [digitsVal_twoDigits hS99]
      show ((c.toNat / 100 : ℕ) : ℤ) = c / 100
      omega
    · rw [digitsVal_twoDigits hF99]
      show ((c.toNat % 100 : ℕ) : ℤ) = c % 100
      omega
  · have htr0 : 0 ≤ pyTrunc s := by
      unfold pyTrunc
      rw [if_pos hs0]
      exact Int.floor_nonneg.2 hs0
    have htr59 : pyTrunc s ≤ 59 := by
      unfold pyTrunc
      rw [if_pos hs0]
      have := Int.floor_lt.2 (by push_cast; linarith : s < ((60 : ℤ) : ℚ))
      omega
    have hT99 : (pyTrunc s).toNat ≤ 99 := by omega
    obtain ⟨ta, tb, hteq, hta, htb, _⟩ := twoDigits_spec hT99
    refine ⟨twoDigits m.toNat, twoDigits (pyTrunc s).toNat, ?_, ?_, ?_, ?_, ?_, ?_, ?_⟩
    · show splitOnChar ':'
        (intDigits h ++ ':' :: pad2 m ++ ':' :: pad2 (pyTrunc s)) = _
      rw [show intDigits h = natDigits h.toNat from if_pos hh0,
        show pad2 m = twoDigits m.toNat from if_pos hm0,
        show pad2 (pyTrunc s) = twoDigits (pyTrunc s).toNat from if_pos htr0]
      rw [show natDigits h.toNat ++ ':' :: twoDigits m.toNat ++
            ':' :: twoDigits (pyTrunc s).toNat =
          natDigits h.toNat ++ ':' :: (twoDigits m.toNat ++
            ':' :: twoDigits (pyTrunc s).toNat) from by simp]
      rw [splitOnChar_append_sep hHfree, splitOnChar_append_sep hMfree]
      rw [splitOnChar_sepFree ?_]
      intro x hx
      rw [hteq] at hx
      rcases List.mem_cons.1 hx with rfl | hx
      · exact isDigit_ne_colon hta
      rcases List.mem_cons.1 hx with rfl | hx
      · exact isDigit_ne_colon htb
      · cases hx
    · rw [hmeq]; rfl
    · rw [digitsVal_twoDigits hmN]
      show ((m.toNat : ℕ) : ℤ) = m
      omega
    · rw [hteq]; rfl
    · rw [hteq]; simp [hta, htb]
    · rw [digitsVal_twoDigits hT99]
      show (((pyTrunc s).toNat : ℕ) : ℤ) = pyTrunc s
      omega
    · show ∀ x ∈ intDigits h ++ ':' :: pad2 m ++ ':' :: pad2 (pyTrunc s), x ≠ '.'
      rw [show intDigits h = natDigits h.toNat from if_pos hh0,
        show pad2 m = twoDigits m.toNat from if_pos hm0,
        show pad2 (pyTrunc s) = twoDigits (pyTrunc s).toNat from if_pos htr0]
      intro x hx
      rcases List.mem_append.1 hx with hx | hx
      · rcases List.mem_append.1 hx with hx | hx
        · have := natDigits_all_digits h.toNat
          rw [List.all_eq_true] at this
          exact isDigit_ne_dot (this x hx)
        · rcases List.mem_cons.1 hx with rfl | hx
          · decide
          rw [hmeq] at hx
          rcases List.mem_cons.1 hx with rfl | hx
          · exact isDigit_ne_dot hma
          rcases List.mem_cons.1 hx with rfl | hx
          · exact isDigit_ne_dot hmb
          · cases hx
      · rcases List.mem_cons.1 hx with rfl | hx
        · decide
        rw [hteq] at hx
        rcases List.mem_cons.1 hx with rfl | hx
        · exact isDigit_ne_dot hta
        rcases List.mem_cons.1 hx with rfl | hx
        · exact isDigit_ne_dot htb
        · cases hx

/-- Witness for C3 (amended) at `t = ⟨12, 5, 7/2⟩`. -/
theorem c3_format_amended_witness :
    FormatTrueOK ⟨12, 5, (7 : ℚ) / 2⟩ ∧ FormatFalseOK ⟨12, 5, (7 : ℚ) / 2⟩ :=
  c3_format_amended ⟨12, 5, (7 : ℚ) / 2⟩ (by norm_num) (by norm_num) (by norm_num)
    (by norm_num) (by norm_num)
